import Mathlib

/-!
# MyTorrent: bencoding codec and tracker model

A shallow embedding of `mytorrent/bencoding.py` (the `Decoder` and `Encoder`
classes), `mytorrent/tokens.py` (the grammar token constants) and the pure
parts of `mytorrent/tracker.py` (`TrackerResponse` accessors, `_decode_port`,
and the query-parameter construction in `Tracker.connect`).

Bytes are modelled as `Nat` (each in `0..255` on real inputs), buffers as
`List Nat`, Python's unbounded `int` as `Int`/`Nat`. The decoder's mutable
cursor `self._index` is threaded explicitly: every primitive takes the buffer
and the current index and returns its result together with the new index.
Fallible Python code (code that can raise) returns `Except PyErr _`, with one
`PyErr` constructor per Python exception class that the embedded code can
raise.
-/

namespace MyTorrent

/-- Python exception classes raisable by the embedded bencoding code. -/
inductive PyErr where
  /-- `EOFError('Unexpected end-of-file')` from `Decoder.decode`. -/
  | eofError
  /-- `RuntimeError`: invalid token in `decode`, token not found in
  `_read_until`, or the `"Bad dict"` branch of `Encoder._encode_dict`. -/
  | runtimeError
  /-- `IndexError` from `Decoder._read`. -/
  | indexError
  /-- `ValueError` from `int(...)` on a non-numeric run. -/
  | valueError
  /-- `TypeError`: unsupported type in `Encoder.encode_next`, or an
  unhashable dict key in `_decode_dict`. -/
  | typeError
  /-- Artifact of the fuelled embedding; Python's decoder has no such case.
  The wrapper `decodeBytes` supplies fuel that a terminating run never
  exhausts, and no theorem below produces this value. -/
  | outOfFuel
  deriving DecidableEq, Repr

/-- The universe of values the decoder can produce and the encoder consumes:
Python `int`, `bytes`, `list`, `OrderedDict` (as an ordered association list),
and `None` (which `Decoder.decode` returns for a bare end token).  Python
text `str` never appears in decoder output and is outside the `Value` data
model of the spec, so it is not modelled. -/
inductive PyVal where
  | int (n : Int)
  | bytes (s : List Nat)
  | list (xs : List PyVal)
  | dict (ps : List (PyVal × PyVal))
  | none
  deriving Repr

/-! ## tokens.py -/

/-- `Token.TOKEN_INTEGER = b'i'` -/
def TOKEN_INTEGER : Nat := 105

/-- `Token.TOKEN_LIST = b'l'` -/
def TOKEN_LIST : Nat := 108

/-- `Token.TOKEN_DICT = b'd'` -/
def TOKEN_DICT : Nat := 100

/-- `Token.TOKEN_END = b'e'` -/
def TOKEN_END : Nat := 101

/-- `Token.TOKEN_STRING_SEPARATOR = b':'` -/
def TOKEN_STRING_SEPARATOR : Nat := 58

/-! ## Python `int()` on a bytes run

`Decoder._decode_int` and `_decode_string` parse runs with Python's built-in
`int`, which accepts optional surrounding ASCII whitespace, one optional
sign, and decimal digits with single underscores allowed between digits.
Leading zeros are accepted (`int(b'03') == 3`), as is `-0`. -/

/-- ASCII whitespace bytes stripped by Python `int()`. -/
def isSpaceB (c : Nat) : Bool := c == 32 || c == 9 || c == 10 || c == 13 || c == 11 || c == 12

/-- ASCII decimal digit. -/
def isDigitB (c : Nat) : Bool := 48 ≤ c && c ≤ 57

/-- Digits after the first: digits, with single underscores allowed between
digits (CPython's grouping rule). `acc` is the value of the digits consumed
so far. -/
def parseDigitsAux : List Nat → Nat → Option Nat
  | [], acc => some acc
  | c :: rest, acc =>
    if isDigitB c then parseDigitsAux rest (10 * acc + (c - 48))
    else if c == 95 then
      match rest with
      | d :: rest2 => if isDigitB d then parseDigitsAux rest2 (10 * acc + (d - 48)) else Option.none
      | [] => Option.none
    else Option.none

/-- An unsigned digit run: nonempty, starting with a digit. -/
def parseDigits : List Nat → Option Nat
  | [] => Option.none
  | c :: rest => if isDigitB c then parseDigitsAux rest (c - 48) else Option.none

/-- Strip ASCII whitespace from both ends, as Python `int()` does. -/
def stripWs (s : List Nat) : List Nat :=
  ((s.dropWhile isSpaceB).reverse.dropWhile isSpaceB).reverse

/-- Sign application: `some (Int.ofNat m)` or its negation, `none` on a
failed digit parse. -/
def signedOf (neg : Bool) (p : Option Nat) : Option Int :=
  match p with
  | some m => if neg then some (-(m : Int)) else some ((m : Int))
  | Option.none => Option.none

/-- Python `int(s)` on a bytes run: `some n` on success, `none` when Python
raises `ValueError`. -/
def pyInt (s : List Nat) : Option Int :=
  match stripWs s with
  | [] => Option.none
  | c :: rest =>
    if c = 45 then signedOf true (parseDigits rest)
    else if c = 43 then signedOf false (parseDigits rest)
    else signedOf false (parseDigits (c :: rest))

/-- Digit-extraction loop for `natDec`, structurally recursive on a fuel
bound (any `fuel > m` is enough, since the argument shrinks at each step). -/
def natDecAux : Nat → Nat → List Nat
  | 0, _ => []
  | f + 1, m => if m < 10 then [48 + m] else natDecAux f (m / 10) ++ [48 + m % 10]

/-- Decimal digits of a natural number, most significant first: Python
`str(m)` for `m ≥ 0`, as ASCII bytes. -/
def natDec (m : Nat) : List Nat := natDecAux (m + 1) m

/-- Python `str(n)` for an `int`, as ASCII bytes. -/
def intStr (n : Int) : List Nat :=
  if n < 0 then 45 :: natDec n.natAbs else natDec n.toNat

/-! ## Decoder primitives (`mytorrent/bencoding.py`) -/

/-- The one-byte slice `data[i:i+1]` as an `Option`: `none` exactly when the
slice is empty. -/
def byteAt (d : List Nat) (i : Nat) : Option Nat := (d.drop i).head?

/-- `Decoder._peek`: returns the next byte, or `None` when
`index + 1 >= len(data)` — note the off-by-one: the final byte of the buffer
is never peekable. -/
def peek (d : List Nat) (i : Nat) : Option Nat :=
  if i + 1 ≥ d.length then Option.none else byteAt d i

/-- `Decoder._consume`: advance the cursor one byte. -/
def pyConsume (i : Nat) : Nat := i + 1

/-- `Decoder._read(length)`: raises `IndexError` when
`index + length > len(data)`, else returns `data[index:index+length]` and
advances the cursor by `length`. The length is an `int` in Python; every call
from `decode` passes a nonnegative value (a string length parsed from a
digit-led run), so clamping the new index with `Int.toNat` is faithful. -/
def pyRead (d : List Nat) (i : Nat) (len : Int) : Except PyErr (List Nat × Nat) :=
  if (i : Int) + len > (d.length : Int) then .error .indexError
  else .ok ((d.drop i).take len.toNat, ((i : Int) + len).toNat)

/-- First occurrence of `tok` in `d`, as an index (the search loop of
`bytes.index`). -/
def findFromAux (d : List Nat) (tok : Nat) : Option Nat :=
  match d with
  | [] => Option.none
  | c :: t => if c = tok then some 0 else (findFromAux t tok).map (· + 1)

/-- `data.index(tok, i)`: the least index `≥ i` at which `tok` occurs. -/
def findFrom (d : List Nat) (tok : Nat) (i : Nat) : Option Nat :=
  (findFromAux (d.drop i) tok).map (· + i)

/-- `Decoder._read_until(token)`: find the token from the cursor onwards,
return `data[index:occurrence]` and set the cursor just past the token;
raises `RuntimeError` when the token does not occur. -/
def readUntil (d : List Nat) (i : Nat) (tok : Nat) : Except PyErr (List Nat × Nat) :=
  match findFrom d tok i with
  | some occ => .ok ((d.drop i).take (occ - i), occ + 1)
  | Option.none => .error .runtimeError

/-- `Decoder._decode_int`: `int(self._read_until(TOKEN_END))`. -/
def decodeInt (d : List Nat) (i : Nat) : Except PyErr (PyVal × Nat) :=
  match readUntil d i TOKEN_END with
  | .error e => .error e
  | .ok (digits, j) =>
    match pyInt digits with
    | some n => .ok (.int n, j)
    | Option.none => .error .valueError

/-- `Decoder._decode_string`: parse the length run up to `:` with `int`,
then `_read` that many bytes. -/
def decodeString (d : List Nat) (i : Nat) : Except PyErr (PyVal × Nat) :=
  match readUntil d i TOKEN_STRING_SEPARATOR with
  | .error e => .error e
  | .ok (digits, j) =>
    match pyInt digits with
    | Option.none => .error .valueError
    | some len =>
      match pyRead d j len with
      | .error e => .error e
      | .ok (s, j2) => .ok (.bytes s, j2)

/-- Equality test used for dict keys. Only hashable values (`int`, `bytes`,
`None`) ever reach a key comparison — `pySetItem` rejects `list`/`dict` keys
before comparing — and on those Python `==` is the structural test below;
comparisons across those types are `False`. -/
def keyBeq (a b : PyVal) : Bool :=
  match a, b with
  | .int x, .int y => x == y
  | .bytes x, .bytes y => x == y
  | .none, .none => true
  | _, _ => false

/-- `OrderedDict` assignment `res[key] = obj`: overwrite in place when the
key is already present (keeping the stored key and its position), else
append. -/
def odUpdate (acc : List (PyVal × PyVal)) (k v : PyVal) : List (PyVal × PyVal) :=
  if acc.any (fun p => keyBeq p.1 k) then
    acc.map (fun p => if keyBeq p.1 k then (p.1, v) else p)
  else acc ++ [(k, v)]

/-- `res[key] = obj` in `_decode_dict`: Python hashes the key first, so an
unhashable key (`list`, `dict`) raises `TypeError` before any comparison. -/
def pySetItem (acc : List (PyVal × PyVal)) (k v : PyVal) :
    Except PyErr (List (PyVal × PyVal)) :=
  match k with
  | .list _ => .error .typeError
  | .dict _ => .error .typeError
  | _ => .ok (odUpdate acc k v)

mutual

/-- `Decoder.decode`, with explicit fuel bounding the nesting of recursive
calls (Python needs none: on every input each nested call either raises or
strictly advances the cursor, so recursion is finite; `decodeBytes` below
supplies fuel that terminating runs never exhaust).  Dispatch order follows
the Python `match`: end-of-peek, `i`, `l`, `d`, `e` (returned as `None`
without consuming), digit (the doubled `9` in `b'01234567899'` is redundant),
anything else `RuntimeError`. -/
def decode (fuel : Nat) (d : List Nat) (i : Nat) : Except PyErr (PyVal × Nat) :=
  match fuel with
  | 0 => .error .outOfFuel
  | f + 1 =>
    match peek d i with
    | Option.none => .error .eofError
    | some c =>
      if c = TOKEN_INTEGER then decodeInt d (pyConsume i)
      else if c = TOKEN_LIST then
        match decodeList f d (pyConsume i) with
        | .ok (xs, j) => .ok (.list xs, j)
        | .error e => .error e
      else if c = TOKEN_DICT then
        match decodeDict f d (pyConsume i) [] with
        | .ok (ps, j) => .ok (.dict ps, j)
        | .error e => .error e
      else if c = TOKEN_END then .ok (.none, i)
      else if isDigitB c then decodeString d i
      else .error .runtimeError

/-- `Decoder._decode_list`: loop while `data[index:index+1] != b'e'`,
appending recursive decodes; then consume the end token. -/
def decodeList (fuel : Nat) (d : List Nat) (i : Nat) : Except PyErr (List PyVal × Nat) :=
  match fuel with
  | 0 => .error .outOfFuel
  | f + 1 =>
    if byteAt d i = some TOKEN_END then .ok ([], pyConsume i)
    else
      match decode f d i with
      | .error e => .error e
      | .ok (x, j) =>
        match decodeList f d j with
        | .error e => .error e
        | .ok (xs, j2) => .ok (x :: xs, j2)

/-- `Decoder._decode_dict`: loop while the next byte is not the end token,
decoding a key then a value and storing them with `res[key] = obj`; `acc` is
the `OrderedDict` built so far (`decode` starts it empty). -/
def decodeDict (fuel : Nat) (d : List Nat) (i : Nat) (acc : List (PyVal × PyVal)) :
    Except PyErr (List (PyVal × PyVal) × Nat) :=
  match fuel with
  | 0 => .error .outOfFuel
  | f + 1 =>
    if byteAt d i = some TOKEN_END then .ok (acc, pyConsume i)
    else
      match decode f d i with
      | .error e => .error e
      | .ok (k, j) =>
        match decode f d j with
        | .error e => .error e
        | .ok (v, j2) =>
          match pySetItem acc k v with
          | .error e => .error e
          | .ok acc2 => decodeDict f d j2 acc2

end

/-- `Decoder(data).decode()`: run the decoder from index `0` and return the
decoded value (trailing bytes are ignored, as in Python).  The fuel
`2 * len + 2` dominates the call depth of any terminating run: along any call
chain, every two nested calls advance the cursor by at least one byte. -/
def decodeBytes (d : List Nat) : Except PyErr PyVal :=
  (decode (2 * d.length + 2) d 0).map Prod.fst

/-! ## Encoder (`mytorrent/bencoding.py`) -/

mutual

/-- `Encoder.encode_next`. The `str` arm of the Python `match` handles text
strings, which lie outside the `Value` model (the decoder never produces
them); the remaining arms are modelled one to one: `int`, `list`,
`dict`/`OrderedDict`, `bytes`, and the catch-all `TypeError` (here: `None`,
the one out-of-model value the decoder can produce). -/
def encodeNext : PyVal → Except PyErr (List Nat)
  | .int n => .ok (TOKEN_INTEGER :: intStr n ++ [TOKEN_END])
  | .bytes s => .ok (natDec s.length ++ TOKEN_STRING_SEPARATOR :: s)
  | .list xs =>
    match encodeListBody xs with
    | .ok body => .ok (TOKEN_LIST :: body ++ [TOKEN_END])
    | .error e => .error e
  | .dict ps =>
    match encodeDictBody ps with
    | .ok body => .ok (TOKEN_DICT :: body ++ [TOKEN_END])
    | .error e => .error e
  | .none => .error .typeError

/-- The joined element encodings of `Encoder._encode_list`
(`b''.join([self.encode_next(item) for item in data])`). -/
def encodeListBody : List PyVal → Except PyErr (List Nat)
  | [] => .ok []
  | x :: xs =>
    match encodeNext x with
    | .error e => .error e
    | .ok h =>
      match encodeListBody xs with
      | .error e => .error e
      | .ok t => .ok (h ++ t)

/-- The pair loop of `Encoder._encode_dict`: encode key then value, and
append both only when both are truthy (nonempty); otherwise raise
`RuntimeError("Bad dict")`. -/
def encodeDictBody : List (PyVal × PyVal) → Except PyErr (List Nat)
  | [] => .ok []
  | (k, v) :: ps =>
    match encodeNext k with
    | .error e => .error e
    | .ok ek =>
      match encodeNext v with
      | .error e => .error e
      | .ok ev =>
        if ek ≠ [] ∧ ev ≠ [] then
          match encodeDictBody ps with
          | .error e => .error e
          | .ok t => .ok (ek ++ ev ++ t)
        else .error .runtimeError

end

/-! ## Well-formed values

The spec's `Value` data model: integers, byte strings, lists, and maps whose
keys are byte strings in (strictly) sorted order. -/

/-- Strict lexicographic order on byte strings (the sort order of canonical
bencoding map keys). -/
def lexLtB : List Nat → List Nat → Bool
  | [], [] => false
  | [], _ :: _ => true
  | _ :: _, [] => false
  | a :: as_, b :: bs_ => a < b || (a == b && lexLtB as_ bs_)

/-- `keyLt k q`: both are byte strings and `k`'s bytes are lexicographically
smaller. -/
def keyLt (k q : PyVal) : Bool :=
  match k, q with
  | .bytes x, .bytes y => lexLtB x y
  | _, _ => false

/-- Is this value a byte string? -/
def isBytesV : PyVal → Bool
  | .bytes _ => true
  | _ => false

mutual

/-- Membership in the spec's `Value` model: an integer, a byte string, a list
of well-formed values, or a map from byte-string keys in strictly ascending
lexicographic order to well-formed values. `None` is out of model. -/
def wfV : PyVal → Bool
  | .int _ => true
  | .bytes _ => true
  | .list xs => wfListV xs
  | .dict ps => wfDictV ps
  | .none => false

/-- All elements well formed. -/
def wfListV : List PyVal → Bool
  | [] => true
  | x :: xs => wfV x && wfListV xs

/-- Every key a byte string strictly below all later keys; every value well
formed. -/
def wfDictV : List (PyVal × PyVal) → Bool
  | [] => true
  | (k, v) :: ps => isBytesV k && wfV v && ps.all (fun q => keyLt k q.1) && wfDictV ps

end

/-! ## Fuel accounting

`need v` bounds the fuel `decode` consumes on `encodeNext v`; it exists only
to state the round-trip lemma additively and is hidden by `decodeBytes`. -/

mutual

/-- Fuel sufficient to decode the encoding of `v`. -/
def need : PyVal → Nat
  | .int _ => 1
  | .bytes _ => 1
  | .none => 1
  | .list xs => 1 + needL xs
  | .dict ps => 1 + needD ps

/-- Fuel sufficient for the list loop over the encodings of `xs`. -/
def needL : List PyVal → Nat
  | [] => 1
  | x :: xs => 1 + need x + needL xs

/-- Fuel sufficient for the dict loop over the encodings of `ps`. -/
def needD : List (PyVal × PyVal) → Nat
  | [] => 1
  | (k, v) :: ps => 1 + need k + need v + needD ps

end

/-! ## TrackerResponse (`mytorrent/tracker.py`) -/

/-- Python exception classes raisable by the embedded tracker code. -/
inductive TrkErr where
  /-- `KeyError` from `self.response[b"peers"]` when the key is absent. -/
  | keyError
  /-- `NotImplementedError` for dictionary-model peers. -/
  | notImplementedError
  /-- `OSError` from `socket.inet_ntoa` on a packed string not of length 4. -/
  | osError
  /-- `struct.error` from `unpack(">H", ...)` on a string not of length 2. -/
  | structError
  /-- `TypeError`: a non-`int` statistics field, or an unsliceable `peers`
  value. -/
  | typeError
  deriving DecidableEq, Repr

/-- `b"interval"` -/
def bInterval : List Nat := [105, 110, 116, 101, 114, 118, 97, 108]

/-- `b"complete"` -/
def bComplete : List Nat := [99, 111, 109, 112, 108, 101, 116, 101]

/-- `b"incomplete"` -/
def bIncomplete : List Nat := [105, 110, 99, 111, 109, 112, 108, 101, 116, 101]

/-- `b"peers"` -/
def bPeers : List Nat := [112, 101, 101, 114, 115]

/-- Python dict lookup `self.response.get(key)` on the decoded map (the
decoder keeps keys unique, so first match suffices). -/
def dictGet (resp : List (PyVal × PyVal)) (k : PyVal) : Option PyVal :=
  (resp.find? (fun p => keyBeq p.1 k)).map (·.2)

/-- `TrackerResponse.interval`: `self.response.get(b"interval", 0)`, then
`isinstance(res, int)` or `TypeError`. -/
def interval (resp : List (PyVal × PyVal)) : Except TrkErr Int :=
  match (dictGet resp (.bytes bInterval)).getD (.int 0) with
  | .int n => .ok n
  | _ => .error .typeError

/-- `TrackerResponse.complete`. -/
def complete (resp : List (PyVal × PyVal)) : Except TrkErr Int :=
  match (dictGet resp (.bytes bComplete)).getD (.int 0) with
  | .int n => .ok n
  | _ => .error .typeError

/-- `TrackerResponse.incomplete`. -/
def incomplete (resp : List (PyVal × PyVal)) : Except TrkErr Int :=
  match (dictGet resp (.bytes bIncomplete)).getD (.int 0) with
  | .int n => .ok n
  | _ => .error .typeError

/-- Dotted-quad rendering of four byte values. -/
def dottedQuad (a b c d : Nat) : String :=
  toString a ++ "." ++ toString b ++ "." ++ toString c ++ "." ++ toString d

/-- `socket.inet_ntoa` (C stdlib): requires a packed string of exactly 4
bytes, else `OSError`. -/
def inetNtoa (p : List Nat) : Except TrkErr String :=
  match p with
  | [a, b, c, d] => .ok (dottedQuad a b c d)
  | _ => .error .osError

/-- `_decode_port`: `unpack(">H", port)[0]`, a big-endian unsigned 16-bit
read requiring exactly 2 bytes (`struct.error` otherwise). -/
def decodePort (p : List Nat) : Except TrkErr Nat :=
  match p with
  | [hi, lo] => .ok (256 * hi + lo)
  | _ => .error .structError

/-- Chunking loop for `chunk6`, structurally recursive on a fuel bound (any
`fuel ≥ length` is enough, since the list shrinks at each step). -/
def chunk6Aux : Nat → List Nat → List (List Nat)
  | 0, _ => []
  | _, [] => []
  | f + 1, c :: t => (c :: t).take 6 :: chunk6Aux f ((c :: t).drop 6)

/-- `[peers[i : i + 6] for i in range(0, len(peers), 6)]`: split into chunks
of 6, the last possibly shorter. -/
def chunk6 (s : List Nat) : List (List Nat) := chunk6Aux s.length s

/-- The peer comprehension
`[(socket.inet_ntoa(p[:4]), _decode_port(p[4:])) for p in peers]`, with the
first exception propagating (left to right, address before port). -/
def mapPeers : List (List Nat) → Except TrkErr (List (String × Nat))
  | [] => .ok []
  | p :: rest =>
    match inetNtoa (p.take 4) with
    | .error e => .error e
    | .ok ip =>
      match decodePort (p.drop 4) with
      | .error e => .error e
      | .ok port =>
        match mapPeers rest with
        | .error e => .error e
        | .ok acc => .ok ((ip, port) :: acc)

/-- `TrackerResponse.peers`: look up `b"peers"` (`KeyError` when absent); a
`list` value raises `NotImplementedError`; a byte string is split into
6-byte chunks and converted. A decoded `int` or `None` fails `len()` with
`TypeError`; a dict supports `len()` but not slice indexing, so a nonempty
dict raises `TypeError` at the first chunk while an empty one yields `[]`. -/
def peers (resp : List (PyVal × PyVal)) : Except TrkErr (List (String × Nat)) :=
  match dictGet resp (.bytes bPeers) with
  | Option.none => .error .keyError
  | some (.list _) => .error .notImplementedError
  | some (.bytes s) => mapPeers (chunk6 s)
  | some (.dict ps) => if ps.isEmpty then .ok [] else .error .typeError
  | some _ => .error .typeError

/-- The spec-side description of compact peer decoding, written from the
spec's words: a byte string of length `6 * k` yields exactly `k` pairs, the
`i`-th pair being the dotted quad of bytes `6i..6i+3` and the big-endian
16-bit port of bytes `6i+4..6i+5`. -/
def peersSpec (s : List Nat) : List (String × Nat) :=
  (List.range (s.length / 6)).map (fun i =>
    (dottedQuad (s.getD (6 * i) 0) (s.getD (6 * i + 1) 0)
       (s.getD (6 * i + 2) 0) (s.getD (6 * i + 3) 0),
     256 * s.getD (6 * i + 4) 0 + s.getD (6 * i + 5) 0))

/-! ## Tracker.connect query parameters (`mytorrent/tracker.py`) -/

/-- A query-parameter value: Python `str`, `int`, or `bytes`. -/
inductive QVal where
  | qs (v : String)
  | qi (n : Int)
  | qb (bs : List Nat)
  deriving DecidableEq, Repr

/-- Python dict assignment `params[k] = v` on a string-keyed dict: overwrite
in place when present, else append. -/
def setItem (ps : List (String × QVal)) (k : String) (v : QVal) : List (String × QVal) :=
  if ps.any (fun p => p.1 == k) then
    ps.map (fun p => if p.1 == k then (p.1, v) else p)
  else ps ++ [(k, v)]

/-- Lookup in the parameter dict. -/
def getParam (ps : List (String × QVal)) (k : String) : Option QVal :=
  (ps.find? (fun p => p.1 == k)).map (·.2)

/-- The announce parameters built by `Tracker.connect`: the literal `params`
dict, then `params["event"] = "started"` when `first`, then
`params["event"] = "completed"` when `seeder` (the second assignment
overwrites the first when both flags are set). `info_hash` and the
20-byte peer id come from the `Torrent` collaborator and
`_calculate_peer_id`; `total_size` is `self.torrent.total_size`. -/
def connectParams (infoHash peerId : List Nat) (totalSize uploaded downloaded : Int)
    (first seeder : Bool) : List (String × QVal) :=
  let base : List (String × QVal) :=
    [("info_hash", .qb infoHash),
     ("peer_id", .qb peerId),
     ("port", .qi 6889),
     ("uploaded", .qi uploaded),
     ("downloaded", .qi downloaded),
     ("left", .qi (totalSize - downloaded)),
     ("compact", .qi 1)]
  let p1 := if first then setItem base "event" (.qs "started") else base
  if seeder then setItem p1 "event" (.qs "completed") else p1

/-!
# Theorems

First, a toolbox about the decoder primitives on buffers of the shape
`pre ++ segment ++ post`, then the arithmetic of `natDec`/`pyInt`, then the
round-trip development and the claim theorems.
-/

/-- Reading one byte past a known front segment. -/
theorem byteAt_append (pre l : List Nat) (n : Nat) :
    byteAt (pre ++ l) (pre.length + n) = byteAt l n := by
  simp only [byteAt, List.drop_append]

/-- The byte right after the front segment is the head of the rest. -/
theorem byteAt_append_head (pre : List Nat) (c : Nat) (t : List Nat) :
    byteAt (pre ++ c :: t) pre.length = some c := by
  have h := byteAt_append pre (c :: t) 0
  rw [Nat.add_zero] at h
  rw [h]
  rfl

/-- `_peek` sees the byte after the front segment as long as at least one
more byte follows it (the off-by-one hides only the very last byte). -/
theorem peek_append (pre : List Nat) (c : Nat) (rest : List Nat) (h : rest ≠ []) :
    peek (pre ++ c :: rest) pre.length = some c := by
  have hlen : (pre ++ c :: rest).length = pre.length + rest.length + 1 := by
    simp; omega
  have hrest : 0 < rest.length := List.length_pos.mpr h
  rw [peek, if_neg (by omega), byteAt_append_head]

/-- `_peek` at the very start of a buffer of length at most one returns
`None`. -/
theorem peek_short (d : List Nat) (h : d.length ≤ 1) : peek d 0 = Option.none := by
  rw [peek, if_pos (by omega)]

/-- The byte-search loop finds the token right after a token-free run. -/
theorem findFromAux_not_mem (mid : List Nat) (tok : Nat) (rest : List Nat)
    (h : tok ∉ mid) : findFromAux (mid ++ tok :: rest) tok = some mid.length := by
  induction mid with
  | nil => simp [findFromAux]
  | cons c t ih =>
    simp only [List.mem_cons, not_or] at h
    rw [List.cons_append, findFromAux, if_neg (fun hc => h.1 hc.symm), ih h.2]
    rfl

/-- A found index is inside the searched list. -/
theorem findFromAux_lt (d : List Nat) (tok q : Nat) (h : findFromAux d tok = some q) :
    q < d.length := by
  induction d generalizing q with
  | nil => simp [findFromAux] at h
  | cons c t ih =>
    rw [findFromAux] at h
    by_cases hc : c = tok
    · rw [if_pos hc] at h
      simp only [Option.some.injEq] at h
      simp only [List.length_cons]
      omega
    · rw [if_neg hc] at h
      cases hq : findFromAux t tok with
      | none => rw [hq] at h; simp at h
      | some q' =>
        rw [hq] at h
        simp only [Option.map_some', Option.some.injEq] at h
        have := ih q' hq
        simp only [List.length_cons]
        omega

/-- `_read_until` on a buffer whose cursor sits at a token-free run followed
by the token: it returns the run and puts the cursor just past the token. -/
theorem readUntil_spec (pre mid : List Nat) (tok : Nat) (rest : List Nat) (h : tok ∉ mid) :
    readUntil (pre ++ (mid ++ tok :: rest)) pre.length tok
      = .ok (mid, pre.length + mid.length + 1) := by
  rw [readUntil, findFrom, List.drop_left, findFromAux_not_mem mid tok rest h]
  simp only [Option.map_some']
  have harith : mid.length + pre.length - pre.length = mid.length := by omega
  rw [harith, List.take_left]
  have harith2 : mid.length + pre.length + 1 = pre.length + mid.length + 1 := by omega
  rw [harith2]

/-- On success, `_read_until` advances the cursor by exactly the bytes it
consumed: the returned run plus the token. -/
theorem readUntil_advance (d : List Nat) (i tok : Nat) (bs : List Nat) (j : Nat)
    (h : readUntil d i tok = .ok (bs, j)) : j = i + bs.length + 1 := by
  rw [readUntil] at h
  cases hf : findFrom d tok i with
  | none => rw [hf] at h; simp at h
  | some occ =>
    rw [hf] at h
    simp only [Except.ok.injEq, Prod.mk.injEq] at h
    obtain ⟨hbs, hj⟩ := h
    rw [findFrom] at hf
    cases hq : findFromAux (d.drop i) tok with
    | none => rw [hq] at hf; simp at hf
    | some q =>
      rw [hq] at hf
      simp only [Option.map_some', Option.some.injEq] at hf
      have hlt := findFromAux_lt _ _ _ hq
      rw [List.length_drop] at hlt
      have hlen : bs.length = occ - i := by
        rw [← hbs]
        rw [List.length_take, List.length_drop]
        omega
      omega

/-- On success with a nonnegative length, `_read` returns exactly that many
bytes and advances the cursor by exactly that many. -/
theorem pyRead_advance (d : List Nat) (i : Nat) (len : Int) (bs : List Nat) (j : Nat)
    (h : pyRead d i len = .ok (bs, j)) (hlen : 0 ≤ len) :
    j = i + bs.length ∧ (bs.length : Int) = len := by
  rw [pyRead] at h
  split at h
  · simp at h
  · rename_i hle
    simp only [Except.ok.injEq, Prod.mk.injEq] at h
    obtain ⟨hbs, hj⟩ := h
    have hblen : bs.length = len.toNat := by
      rw [← hbs, List.length_take, List.length_drop]
      omega
    constructor
    · omega
    · omega

/-- `_read` of a segment sitting exactly at the cursor. -/
theorem pyRead_spec (pre s post : List Nat) :
    pyRead (pre ++ s ++ post) pre.length (s.length : Int)
      = .ok (s, pre.length + s.length) := by
  rw [pyRead, if_neg (by simp only [List.length_append]; push_cast; omega)]
  have hdrop : (pre ++ s ++ post).drop pre.length = s ++ post := by
    rw [List.append_assoc, List.drop_left]
  rw [hdrop]
  have htake : (s ++ post).take ((s.length : Int)).toNat = s := by
    simp [List.take_left]
  rw [htake]
  have harith : ((pre.length : Int) + (s.length : Int)).toNat = pre.length + s.length := by
    omega
  rw [harith]

/-! ## Decimal rendering and Python `int` -/

/-- Every byte of `natDecAux` output is an ASCII digit (given enough fuel). -/
theorem natDecAux_digits {f m : Nat} (hf : m < f) :
    ∀ c ∈ natDecAux f m, 48 ≤ c ∧ c ≤ 57 := by
  induction f generalizing m with
  | zero => omega
  | succ f ih =>
    intro c hc
    rw [natDecAux] at hc
    split at hc
    · rename_i hm
      simp only [List.mem_singleton] at hc
      omega
    · rename_i hm
      rw [List.mem_append] at hc
      rcases hc with hc | hc
      · exact ih (by omega) c hc
      · simp only [List.mem_singleton] at hc
        have := Nat.mod_lt m (show 0 < 10 by omega)
        omega

/-- `natDecAux` output is a nonempty list headed by a digit. -/
theorem natDecAux_head {f m : Nat} (hf : m < f) :
    ∃ c t, natDecAux f m = c :: t ∧ 48 ≤ c ∧ c ≤ 57 := by
  induction f generalizing m with
  | zero => omega
  | succ f ih =>
    rw [natDecAux]
    split
    · rename_i hm
      exact ⟨48 + m, [], rfl, by omega, by omega⟩
    · rename_i hm
      obtain ⟨c, t, heq, hc1, hc2⟩ := ih (m := m / 10) (by omega)
      exact ⟨c, t ++ [48 + m % 10], by simp [heq], hc1, hc2⟩

/-- One step of the digit loop on a digit byte. -/
theorem parseDigitsAux_cons_digit {c : Nat} (hc : isDigitB c = true) (rest : List Nat)
    (acc : Nat) : parseDigitsAux (c :: rest) acc = parseDigitsAux rest (10 * acc + (c - 48)) := by
  rw [parseDigitsAux.eq_def]
  simp [hc]

/-- Entering the digit run on a digit byte. -/
theorem parseDigits_cons_digit {c : Nat} (hc : isDigitB c = true) (rest : List Nat) :
    parseDigits (c :: rest) = parseDigitsAux rest (c - 48) := by
  rw [parseDigits.eq_def]
  simp [hc]

/-- Parsing the decimal rendering of `m` (followed by anything) folds `m`
into the accumulator. -/
theorem parseDigitsAux_natDecAux : ∀ (f m : Nat), m < f → ∀ (acc : Nat) (rest : List Nat),
    parseDigitsAux (natDecAux f m ++ rest) acc
      = parseDigitsAux rest (acc * 10 ^ (natDecAux f m).length + m) := by
  intro f
  induction f with
  | zero => intro m hm; omega
  | succ f ih =>
    intro m hf acc rest
    rw [natDecAux]
    split
    · rename_i hm
      have hd : isDigitB (48 + m) = true := by simp [isDigitB]; omega
      rw [List.cons_append, List.nil_append, parseDigitsAux_cons_digit hd]
      simp only [List.length_singleton, pow_one]
      congr 1
      omega
    · rename_i hm
      have hdiv : m / 10 < f := by
        have h1 : m / 10 < m := Nat.div_lt_self (by omega) (by omega)
        omega
      rw [List.append_assoc, ih (m / 10) hdiv acc ([48 + m % 10] ++ rest), List.cons_append,
        List.nil_append]
      have hd : isDigitB (48 + m % 10) = true := by
        have := Nat.mod_lt m (show 0 < 10 by omega)
        simp [isDigitB]; omega
      rw [parseDigitsAux_cons_digit hd]
      congr 1
      rw [List.length_append, List.length_singleton]
      have hdm : 10 * (m / 10) + m % 10 = m := Nat.div_add_mod m 10
      set k := (natDecAux f (m / 10)).length
      have h48 : 48 + m % 10 - 48 = m % 10 := by omega
      rw [h48]
      calc 10 * (acc * 10 ^ k + m / 10) + m % 10
          = acc * (10 ^ k * 10) + (10 * (m / 10) + m % 10) := by ring
        _ = acc * 10 ^ (k + 1) + m := by rw [pow_succ, hdm]

/-- Parsing the full decimal rendering of `m` yields `m`. -/
theorem parseDigits_natDec (m : Nat) : parseDigits (natDec m) = some m := by
  have hnd : natDec m = natDecAux (m + 1) m := rfl
  obtain ⟨c, t, heq, hc1, hc2⟩ := natDecAux_head (f := m + 1) (m := m) (by omega)
  have hd : isDigitB c = true := by simp [isDigitB]; omega
  have hpa := parseDigitsAux_natDecAux (m + 1) m (by omega) 0 []
  rw [List.append_nil, heq, parseDigitsAux_cons_digit hd] at hpa
  rw [hnd, heq, parseDigits_cons_digit hd]
  simp only [Nat.zero_mul, Nat.zero_add, Nat.mul_zero, Nat.add_zero] at hpa
  rw [hpa]
  rfl

/-- Digits are not ASCII whitespace. -/
theorem isSpaceB_digit {c : Nat} (h1 : 48 ≤ c) (h2 : c ≤ 57) : isSpaceB c = false := by
  simp [isSpaceB]; omega

/-- A list with no whitespace survives a front `dropWhile`. -/
theorem dropWhile_no_space {l : List Nat} (h : ∀ c ∈ l, isSpaceB c = false) :
    l.dropWhile isSpaceB = l := by
  cases l with
  | nil => rfl
  | cons c t => rw [List.dropWhile_cons, h c (List.mem_cons_self c t)]; simp

/-- Whitespace stripping is the identity on whitespace-free runs. -/
theorem stripWs_no_space {l : List Nat} (h : ∀ c ∈ l, isSpaceB c = false) :
    stripWs l = l := by
  rw [stripWs, dropWhile_no_space h, dropWhile_no_space (by
    intro c hc
    exact h c (List.mem_reverse.mp hc))]
  exact List.reverse_reverse l

/-- Every byte of `str(n)` is the minus sign or a digit. -/
theorem intStr_mem (n : Int) : ∀ c ∈ intStr n, c = 45 ∨ (48 ≤ c ∧ c ≤ 57) := by
  intro c hc
  rw [intStr] at hc
  split at hc
  · rcases List.mem_cons.mp hc with hc | hc
    · left; exact hc
    · right; exact natDecAux_digits (by omega) c hc
  · right; exact natDecAux_digits (by omega) c hc

/-- Evaluation of `signedOf` on a successful negative parse. -/
theorem signedOf_some_true (m : Nat) : signedOf true (some m) = some (-(m : Int)) := rfl

/-- Evaluation of `signedOf` on a successful unsigned parse. -/
theorem signedOf_some_false (m : Nat) : signedOf false (some m) = some ((m : Int)) := rfl

/-- Evaluation of `signedOf` on a failed parse. -/
theorem signedOf_of_none (b : Bool) : signedOf b Option.none = Option.none := by
  cases b <;> rfl

/-- `pyInt` on a run that strips to a minus sign followed by a rest. -/
theorem pyInt_strip_neg {s r : List Nat} (h : stripWs s = 45 :: r) :
    pyInt s = signedOf true (parseDigits r) := by
  rw [pyInt, h]
  show (if (45 : Nat) = 45 then signedOf true (parseDigits r)
    else if (45 : Nat) = 43 then signedOf false (parseDigits r)
    else signedOf false (parseDigits (45 :: r))) = signedOf true (parseDigits r)
  rw [if_pos rfl]

/-- `pyInt` on a run that strips to an unsigned run. -/
theorem pyInt_strip_cons {s : List Nat} {c : Nat} {r : List Nat}
    (h : stripWs s = c :: r) (hc45 : c ≠ 45) (hc43 : c ≠ 43) :
    pyInt s = signedOf false (parseDigits (c :: r)) := by
  rw [pyInt, h]
  show (if c = 45 then signedOf true (parseDigits r)
    else if c = 43 then signedOf false (parseDigits r)
    else signedOf false (parseDigits (c :: r))) = signedOf false (parseDigits (c :: r))
  rw [if_neg hc45, if_neg hc43]

/-- Python `int(str(n)) == n`. -/
theorem pyInt_intStr (n : Int) : pyInt (intStr n) = some n := by
  have hnospace : ∀ c ∈ intStr n, isSpaceB c = false := by
    intro c hc
    rcases intStr_mem n c hc with hc | hc
    · subst hc; rfl
    · exact isSpaceB_digit hc.1 hc.2
  have hstrip : stripWs (intStr n) = intStr n := stripWs_no_space hnospace
  by_cases hneg : n < 0
  · have hform : intStr n = 45 :: natDec n.natAbs := by rw [intStr, if_pos hneg]
    rw [hform] at hstrip
    rw [hform, pyInt_strip_neg hstrip, parseDigits_natDec, signedOf_some_true]
    simp only [Option.some.injEq]
    omega
  · have hform : intStr n = natDec n.toNat := by rw [intStr, if_neg hneg]
    obtain ⟨c, t, heq, hc1, hc2⟩ := natDecAux_head (f := n.toNat + 1) (m := n.toNat) (by omega)
    have heq2 : natDec n.toNat = c :: t := heq
    rw [hform, heq2] at hstrip
    rw [hform, heq2, pyInt_strip_cons hstrip (by omega) (by omega), ← heq2, parseDigits_natDec,
      signedOf_some_false]
    simp only [Option.some.injEq]
    omega

/-- Dropping whitespace in front of a list that ends in a non-whitespace
byte leaves that final byte in place. -/
theorem dropWhile_last_stays {c : Nat} (hc : isSpaceB c = false) (xs : List Nat) :
    ∃ z, List.dropWhile isSpaceB (xs ++ [c]) = z ++ [c] := by
  induction xs with
  | nil => exact ⟨[], by simp [List.dropWhile_cons, hc]⟩
  | cons a t ih =>
    rw [List.cons_append, List.dropWhile_cons]
    by_cases ha : isSpaceB a
    · rw [if_pos ha]; exact ih
    · rw [if_neg ha]; exact ⟨a :: t, rfl⟩

/-- Stripping whitespace from a run headed by a non-whitespace byte keeps
that head. -/
theorem stripWs_cons {c : Nat} (hc : isSpaceB c = false) (l : List Nat) :
    ∃ r, stripWs (c :: l) = c :: r := by
  rw [stripWs, List.dropWhile_cons, hc]
  simp only [Bool.false_eq_true, if_false, List.reverse_cons]
  obtain ⟨z, hz⟩ := dropWhile_last_stays hc l.reverse
  rw [hz]
  exact ⟨z.reverse, by simp⟩

/-- Python `int` of a digit-led run, when it succeeds, is nonnegative. -/
theorem pyInt_digit_head_nonneg {c : Nat} {l : List Nat} {L : Int}
    (hc : isDigitB c = true) (h : pyInt (c :: l) = some L) : 0 ≤ L := by
  simp only [isDigitB, Bool.and_eq_true, decide_eq_true_eq] at hc
  obtain ⟨r, hr⟩ := stripWs_cons (isSpaceB_digit hc.1 hc.2) l
  rw [pyInt_strip_cons hr (by omega) (by omega)] at h
  cases hp : parseDigits (c :: r) with
  | none => rw [hp, signedOf_of_none] at h; simp at h
  | some m =>
    rw [hp, signedOf_some_false] at h
    simp only [Option.some.injEq] at h
    omega

/-- The head of a nonempty `take` is the head of the list. -/
theorem head?_take {l : List Nat} {n : Nat} (hn : 0 < n) : (l.take n).head? = l.head? := by
  cases l with
  | nil => simp
  | cons c t =>
    cases n with
    | zero => omega
    | succ n => simp [List.take]

/-! ## Shape of encoder output -/

/-- Every successful encoding is at least two bytes and does not start with
the end token: integers start with `i`, strings with a digit, lists with
`l`, dicts with `d`. -/
theorem encodeNext_shape {v : PyVal} {bs : List Nat} (h : encodeNext v = .ok bs) :
    ∃ c t, bs = c :: t ∧ t ≠ [] ∧ c ≠ TOKEN_END := by
  cases v with
  | int n =>
    simp only [encodeNext, Except.ok.injEq] at h
    exact ⟨TOKEN_INTEGER, intStr n ++ [TOKEN_END], h.symm, by simp, by decide⟩
  | bytes s =>
    simp only [encodeNext, Except.ok.injEq] at h
    obtain ⟨c, t, heq, h1, h2⟩ := natDecAux_head (f := s.length + 1) (m := s.length) (by omega)
    have heq2 : natDec s.length = c :: t := heq
    refine ⟨c, t ++ TOKEN_STRING_SEPARATOR :: s, ?_, by simp, ?_⟩
    · rw [← h, heq2]
      simp
    · simp only [TOKEN_END]
      omega
  | list xs =>
    simp only [encodeNext] at h
    cases hb : encodeListBody xs with
    | error e => rw [hb] at h; simp at h
    | ok body =>
      rw [hb] at h
      simp only [Except.ok.injEq] at h
      exact ⟨TOKEN_LIST, body ++ [TOKEN_END], h.symm, by simp, by decide⟩
  | dict ps =>
    simp only [encodeNext] at h
    cases hb : encodeDictBody ps with
    | error e => rw [hb] at h; simp at h
    | ok body =>
      rw [hb] at h
      simp only [Except.ok.injEq] at h
      exact ⟨TOKEN_DICT, body ++ [TOKEN_END], h.symm, by simp, by decide⟩
  | none => simp [encodeNext] at h

/-- A successful encoding is nonempty (Python truthiness of the key/value
encodings in `_encode_dict`). -/
theorem encodeNext_ne_nil {v : PyVal} {bs : List Nat} (h : encodeNext v = .ok bs) :
    bs ≠ [] := by
  obtain ⟨c, t, heq, -, -⟩ := encodeNext_shape h
  rw [heq]
  simp

/-! ## Induction over the value tree -/

/-- Structural induction principle for `PyVal`, with membership hypotheses
for the nested lists. -/
theorem pyval_ind {P : PyVal → Prop}
    (hint : ∀ n, P (.int n)) (hbytes : ∀ s, P (.bytes s)) (hnone : P .none)
    (hlist : ∀ xs, (∀ x ∈ xs, P x) → P (.list xs))
    (hdict : ∀ ps, (∀ k v, (k, v) ∈ ps → P k ∧ P v) → P (.dict ps)) :
    ∀ v, P v := by
  have H : ∀ (n : Nat) (v : PyVal), sizeOf v ≤ n → P v := by
    intro n
    induction n with
    | zero =>
      intro v hv
      cases v <;> simp at hv
    | succ n ih =>
      intro v hv
      cases v with
      | int m => exact hint m
      | bytes s => exact hbytes s
      | none => exact hnone
      | list xs =>
        apply hlist
        intro x hx
        have h1 := List.sizeOf_lt_of_mem hx
        have hs : sizeOf (PyVal.list xs) = 1 + sizeOf xs := by simp
        exact ih x (by omega)
      | dict ps =>
        apply hdict
        intro k v' hkv
        have h1 := List.sizeOf_lt_of_mem hkv
        have h2 : sizeOf (k, v') = 1 + sizeOf k + sizeOf v' := by simp
        have hs : sizeOf (PyVal.dict ps) = 1 + sizeOf ps := by simp
        exact ⟨ih k (by omega), ih v' (by omega)⟩
  intro v
  exact H (sizeOf v) v (le_refl _)

/-! ## Small facts about keys and dict updates -/

/-- Strict lexicographic order is irreflexive. -/
theorem lexLtB_irrefl (s : List Nat) : lexLtB s s = false := by
  induction s with
  | nil => rfl
  | cons a t ih => simp [lexLtB, ih]

/-- Assignment with a fresh key appends the pair. -/
theorem odUpdate_not_mem {acc : List (PyVal × PyVal)} {k : PyVal} (v : PyVal)
    (h : acc.any (fun p => keyBeq p.1 k) = false) : odUpdate acc k v = acc ++ [(k, v)] := by
  rw [odUpdate, if_neg (by simp [h])]

/-- Assignment with a byte-string key never raises. -/
theorem pySetItem_bytes (acc : List (PyVal × PyVal)) (s : List Nat) (v : PyVal) :
    pySetItem acc (.bytes s) v = .ok (odUpdate acc (.bytes s) v) := rfl

/-! ## Decoder dispatch -/

/-- Unfolding one decoder step at an integer token. -/
theorem decode_succ_int {f : Nat} {d : List Nat} {i : Nat}
    (hpeek : peek d i = some TOKEN_INTEGER) :
    decode (f + 1) d i = decodeInt d (pyConsume i) := by
  simp [decode, hpeek]

/-- Unfolding one decoder step at a list token. -/
theorem decode_succ_list {f : Nat} {d : List Nat} {i : Nat}
    (hpeek : peek d i = some TOKEN_LIST) :
    decode (f + 1) d i
      = match decodeList f d (pyConsume i) with
        | .ok (xs, j) => .ok (.list xs, j)
        | .error e => .error e := by
  simp [decode, hpeek, TOKEN_INTEGER, TOKEN_LIST]

/-- Unfolding one decoder step at a dict token. -/
theorem decode_succ_dict {f : Nat} {d : List Nat} {i : Nat}
    (hpeek : peek d i = some TOKEN_DICT) :
    decode (f + 1) d i
      = match decodeDict f d (pyConsume i) [] with
        | .ok (ps, j) => .ok (.dict ps, j)
        | .error e => .error e := by
  simp [decode, hpeek, TOKEN_INTEGER, TOKEN_LIST, TOKEN_DICT]

/-- Unfolding one decoder step at a digit: string decoding, cursor not yet
advanced. -/
theorem decode_succ_digit {f : Nat} {d : List Nat} {i : Nat} {c : Nat}
    (hpeek : peek d i = some c) (hdig : isDigitB c = true) :
    decode (f + 1) d i = decodeString d i := by
  have hc : 48 ≤ c ∧ c ≤ 57 := by
    simpa [isDigitB] using hdig
  simp only [decode, hpeek]
  rw [if_neg (by simp only [TOKEN_INTEGER]; omega), if_neg (by simp only [TOKEN_LIST]; omega),
    if_neg (by simp only [TOKEN_DICT]; omega), if_neg (by simp only [TOKEN_END]; omega),
    if_pos hdig]

/-- A list token whose loop result is known. -/
theorem decode_list_ok {f : Nat} {d : List Nat} {i : Nat} {xs : List PyVal} {j : Nat}
    (hpeek : peek d i = some TOKEN_LIST)
    (h : decodeList f d (i + 1) = .ok (xs, j)) : decode (f + 1) d i = .ok (.list xs, j) := by
  rw [decode_succ_list hpeek]
  simp only [pyConsume]
  rw [h]

/-- A dict token whose loop result is known. -/
theorem decode_dict_ok {f : Nat} {d : List Nat} {i : Nat} {ps : List (PyVal × PyVal)} {j : Nat}
    (hpeek : peek d i = some TOKEN_DICT)
    (h : decodeDict f d (i + 1) [] = .ok (ps, j)) : decode (f + 1) d i = .ok (.dict ps, j) := by
  rw [decode_succ_dict hpeek]
  simp only [pyConsume]
  rw [h]

/-- `_decode_int` once the `_read_until` result is known. -/
theorem decodeInt_eval {d : List Nat} {i : Nat} {digits : List Nat} {j : Nat}
    (hru : readUntil d i TOKEN_END = .ok (digits, j)) :
    decodeInt d i
      = match pyInt digits with
        | some n => .ok (.int n, j)
        | Option.none => .error .valueError := by
  rw [decodeInt, hru]

/-- `_decode_string` once the `_read_until` result is known. -/
theorem decodeString_eval {d : List Nat} {i : Nat} {digits : List Nat} {j : Nat}
    (hru : readUntil d i TOKEN_STRING_SEPARATOR = .ok (digits, j)) :
    decodeString d i
      = match pyInt digits with
        | Option.none => .error .valueError
        | some len =>
          match pyRead d j len with
          | .error e => .error e
          | .ok (s2, j2) => .ok (.bytes s2, j2) := by
  rw [decodeString, hru]

/-- `_decode_int` on a token-free run terminated by `e`. -/
theorem decodeInt_spec (pre digits post : List Nat) (hnotin : TOKEN_END ∉ digits) :
    decodeInt (pre ++ (digits ++ TOKEN_END :: post)) pre.length
      = match pyInt digits with
        | some n => .ok (.int n, pre.length + digits.length + 1)
        | Option.none => .error .valueError :=
  decodeInt_eval (readUntil_spec pre digits TOKEN_END post hnotin)

/-- The empty-list stop case of the list loop. -/
theorem decodeList_eval_nil {f : Nat} {d : List Nat} {i : Nat}
    (hb : byteAt d i = some TOKEN_END) : decodeList (f + 1) d i = .ok ([], i + 1) := by
  simp only [decodeList]
  rw [if_pos hb]
  rfl

/-- One iteration of the list loop with known sub-results. -/
theorem decodeList_eval_cons {f : Nat} {d : List Nat} {i : Nat} {c : Nat} {x : PyVal} {j : Nat}
    {xs : List PyVal} {j2 : Nat}
    (hb : byteAt d i = some c) (hc : c ≠ TOKEN_END)
    (h1 : decode f d i = .ok (x, j)) (h2 : decodeList f d j = .ok (xs, j2)) :
    decodeList (f + 1) d i = .ok (x :: xs, j2) := by
  simp only [decodeList]
  rw [if_neg (by rw [hb]; simp only [Option.some.injEq]; exact hc), h1]
  show (match decodeList f d j with
    | .error e => (.error e : Except PyErr (List PyVal × Nat))
    | .ok (xs', j') => .ok (x :: xs', j')) = .ok (x :: xs, j2)
  rw [h2]

/-- The empty-dict stop case of the dict loop. -/
theorem decodeDict_eval_nil {f : Nat} {d : List Nat} {i : Nat} {acc : List (PyVal × PyVal)}
    (hb : byteAt d i = some TOKEN_END) : decodeDict (f + 1) d i acc = .ok (acc, i + 1) := by
  simp only [decodeDict]
  rw [if_pos hb]
  rfl

/-- One iteration of the dict loop with known sub-results. -/
theorem decodeDict_eval_cons {f : Nat} {d : List Nat} {i : Nat} {acc : List (PyVal × PyVal)}
    {c : Nat} {k : PyVal} {j : Nat} {v : PyVal} {j2 : Nat} {acc2 : List (PyVal × PyVal)}
    {ps : List (PyVal × PyVal)} {j3 : Nat}
    (hb : byteAt d i = some c) (hc : c ≠ TOKEN_END)
    (h1 : decode f d i = .ok (k, j)) (h2 : decode f d j = .ok (v, j2))
    (h3 : pySetItem acc k v = .ok acc2)
    (h4 : decodeDict f d j2 acc2 = .ok (ps, j3)) :
    decodeDict (f + 1) d i acc = .ok (ps, j3) := by
  simp only [decodeDict]
  rw [if_neg (by rw [hb]; simp only [Option.some.injEq]; exact hc), h1]
  show (match decode f d j with
    | .error e => (.error e : Except PyErr (List (PyVal × PyVal) × Nat))
    | .ok (v', j2') =>
      match pySetItem acc k v' with
      | .error e => .error e
      | .ok acc2' => decodeDict f d j2' acc2') = .ok (ps, j3)
  rw [h2]
  show (match pySetItem acc k v with
    | .error e => (.error e : Except PyErr (List (PyVal × PyVal) × Nat))
    | .ok acc2' => decodeDict f d j2 acc2') = .ok (ps, j3)
  rw [h3]
  show decodeDict f d j2 acc2 = .ok (ps, j3)
  exact h4

/-! ## Inversion of the encoder -/

/-- Splitting a successful list-body encoding at its head element. -/
theorem encodeListBody_cons_inv {x : PyVal} {xs : List PyVal} {body : List Nat}
    (h : encodeListBody (x :: xs) = .ok body) :
    ∃ hx tx, encodeNext x = .ok hx ∧ encodeListBody xs = .ok tx ∧ body = hx ++ tx := by
  simp only [encodeListBody] at h
  cases h1 : encodeNext x with
  | error e => rw [h1] at h; simp at h
  | ok hx =>
    rw [h1] at h
    cases h2 : encodeListBody xs with
    | error e => rw [h2] at h; simp at h
    | ok tx =>
      rw [h2] at h
      simp only [Except.ok.injEq] at h
      exact ⟨hx, tx, rfl, rfl, h.symm⟩

/-- Splitting a successful dict-body encoding at its head pair. -/
theorem encodeDictBody_cons_inv {k v : PyVal} {ps : List (PyVal × PyVal)} {body : List Nat}
    (h : encodeDictBody ((k, v) :: ps) = .ok body) :
    ∃ ek ev tx, encodeNext k = .ok ek ∧ encodeNext v = .ok ev ∧ encodeDictBody ps = .ok tx
      ∧ body = ek ++ ev ++ tx := by
  simp only [encodeDictBody] at h
  cases h1 : encodeNext k with
  | error e => rw [h1] at h; simp at h
  | ok ek =>
    rw [h1] at h
    cases h2 : encodeNext v with
    | error e => rw [h2] at h; simp at h
    | ok ev =>
      rw [h2] at h
      have h' : (if ek ≠ [] ∧ ev ≠ [] then
          (match encodeDictBody ps with
           | Except.error e => Except.error e
           | Except.ok t => Except.ok (ek ++ ev ++ t))
        else (Except.error PyErr.runtimeError : Except PyErr (List Nat))) = Except.ok body := h
      rw [if_pos ⟨encodeNext_ne_nil h1, encodeNext_ne_nil h2⟩] at h'
      cases h3 : encodeDictBody ps with
      | error e => rw [h3] at h'; simp at h'
      | ok tx =>
        rw [h3] at h'
        simp only [Except.ok.injEq] at h'
        exact ⟨ek, ev, tx, rfl, rfl, rfl, h'.symm⟩

/-! ## Round trip -/

/-- `pyInt` on the rendering of a length. -/
theorem pyInt_natDec (m : Nat) : pyInt (natDec m) = some ((m : Nat) : Int) := by
  have h1 : intStr ((m : Nat) : Int) = natDec m := by
    rw [intStr, if_neg (by omega)]
    simp
  rw [← h1, pyInt_intStr]

/-- The separator does not occur in a rendered length. -/
theorem sep_not_mem_natDec (m : Nat) : TOKEN_STRING_SEPARATOR ∉ natDec m := by
  intro hc
  have h := natDecAux_digits (f := m + 1) (m := m) (by omega) _ hc
  simp only [TOKEN_STRING_SEPARATOR] at h
  omega

/-- The end token does not occur in a rendered integer. -/
theorem end_not_mem_intStr (n : Int) : TOKEN_END ∉ intStr n := by
  intro hc
  rcases intStr_mem n _ hc with h | h
  · exact absurd h (by decide)
  · simp only [TOKEN_END] at h
    omega

/-- Decoding the canonical encoding of a byte string, in place. -/
theorem decodeString_spec (pre s post : List Nat) :
    decodeString (pre ++ (natDec s.length ++ TOKEN_STRING_SEPARATOR :: s) ++ post) pre.length
      = .ok (.bytes s, pre.length + (natDec s.length ++ TOKEN_STRING_SEPARATOR :: s).length) := by
  have hsh : pre ++ (natDec s.length ++ TOKEN_STRING_SEPARATOR :: s) ++ post
      = pre ++ (natDec s.length ++ TOKEN_STRING_SEPARATOR :: (s ++ post)) := by simp
  rw [hsh]
  rw [decodeString_eval (readUntil_spec pre (natDec s.length) TOKEN_STRING_SEPARATOR (s ++ post)
    (sep_not_mem_natDec s.length))]
  rw [pyInt_natDec]
  show (match pyRead (pre ++ (natDec s.length ++ TOKEN_STRING_SEPARATOR :: (s ++ post)))
      (pre.length + (natDec s.length).length + 1) ((s.length : Nat) : Int) with
    | .error e => (.error e : Except PyErr (PyVal × Nat))
    | .ok (s2, j2) => .ok (.bytes s2, j2))
      = .ok (.bytes s, pre.length + (natDec s.length ++ TOKEN_STRING_SEPARATOR :: s).length)
  have hpr : pyRead (pre ++ (natDec s.length ++ TOKEN_STRING_SEPARATOR :: (s ++ post)))
      (pre.length + (natDec s.length).length + 1) ((s.length : Nat) : Int)
      = .ok (s, pre.length + (natDec s.length ++ TOKEN_STRING_SEPARATOR :: s).length) := by
    have hsh2 : pre ++ (natDec s.length ++ TOKEN_STRING_SEPARATOR :: (s ++ post))
        = (pre ++ natDec s.length ++ [TOKEN_STRING_SEPARATOR]) ++ s ++ post := by simp
    have hidx : pre.length + (natDec s.length).length + 1
        = (pre ++ natDec s.length ++ [TOKEN_STRING_SEPARATOR]).length := by
      simp only [List.length_append, List.length_cons, List.length_nil]
    rw [hsh2, hidx, pyRead_spec]
    have hfin : (pre ++ natDec s.length ++ [TOKEN_STRING_SEPARATOR]).length + s.length
        = pre.length + (natDec s.length ++ TOKEN_STRING_SEPARATOR :: s).length := by
      simp only [List.length_append, List.length_cons, List.length_nil]
      omega
    rw [hfin]
  rw [hpr]

/-- The list loop decodes a concatenation of element encodings terminated by
the end token back to the element list, given the round-trip property of
each element. -/
theorem decodeList_encode : ∀ (xs : List PyVal) (body : List Nat),
    encodeListBody xs = .ok body → wfListV xs = true →
    (∀ x ∈ xs, wfV x = true → ∀ bs, encodeNext x = .ok bs →
      ∀ (pre post : List Nat) (f : Nat),
        decode (need x + f) (pre ++ bs ++ post) pre.length = .ok (x, pre.length + bs.length)) →
    ∀ (pre post : List Nat) (f : Nat),
      decodeList (needL xs + f) (pre ++ body ++ TOKEN_END :: post) pre.length
        = .ok (xs, pre.length + body.length + 1) := by
  intro xs
  induction xs with
  | nil =>
    intro body henc hwf hih pre post f
    simp only [encodeListBody, Except.ok.injEq] at henc
    subst henc
    rw [show needL [] + f = f + 1 from by simp [needL]; omega]
    rw [decodeList_eval_nil (by
      simp only [List.append_nil]
      exact byteAt_append_head pre TOKEN_END post)]
    simp
  | cons x xs ihx =>
    intro body henc hwf hih pre post f
    obtain ⟨hx, tx, h1, h2, hbody⟩ := encodeListBody_cons_inv henc
    obtain ⟨c, t, hhx, htne, hcne⟩ := encodeNext_shape h1
    have hwx : wfV x = true ∧ wfListV xs = true := by
      simpa [wfListV, Bool.and_eq_true] using hwf
    rw [show needL (x :: xs) + f = (need x + (needL xs + f)) + 1 from by simp [needL]; omega]
    have hb : byteAt (pre ++ body ++ TOKEN_END :: post) pre.length = some c := by
      rw [hbody, hhx]
      rw [show pre ++ (c :: t ++ tx) ++ TOKEN_END :: post
          = pre ++ c :: (t ++ tx ++ TOKEN_END :: post) from by simp]
      exact byteAt_append_head pre c _
    have hdec1 : decode (need x + (needL xs + f)) (pre ++ body ++ TOKEN_END :: post) pre.length
        = .ok (x, pre.length + hx.length) := by
      rw [show pre ++ body ++ TOKEN_END :: post = pre ++ hx ++ (tx ++ TOKEN_END :: post) from by
        rw [hbody]; simp]
      exact hih x (List.mem_cons_self x xs) hwx.1 hx h1 pre (tx ++ TOKEN_END :: post)
        (needL xs + f)
    have hdec2 : decodeList (need x + (needL xs + f)) (pre ++ body ++ TOKEN_END :: post)
        (pre.length + hx.length) = .ok (xs, pre.length + body.length + 1) := by
      rw [show need x + (needL xs + f) = needL xs + (need x + f) from by omega]
      rw [show pre.length + hx.length = (pre ++ hx).length from by simp]
      rw [show pre ++ body ++ TOKEN_END :: post = (pre ++ hx) ++ tx ++ TOKEN_END :: post from by
        rw [hbody]; simp]
      rw [ihx tx h2 hwx.2 (fun y hy => hih y (List.mem_cons_of_mem x hy)) (pre ++ hx) post
        (need x + f)]
      have : (pre ++ hx).length + tx.length + 1 = pre.length + body.length + 1 := by
        rw [hbody]
        simp only [List.length_append]
        omega
      rw [this]
    exact decodeList_eval_cons hb hcne hdec1 hdec2

/-- The key of a well-formed dict pair list is absent from any accumulator
whose keys all differ from it; appending preserves the loop invariant. -/
theorem decodeDict_encode : ∀ (ps : List (PyVal × PyVal)) (body : List Nat),
    encodeDictBody ps = .ok body → wfDictV ps = true →
    (∀ k v, (k, v) ∈ ps →
      (wfV k = true → ∀ bs, encodeNext k = .ok bs →
        ∀ (pre post : List Nat) (f : Nat),
          decode (need k + f) (pre ++ bs ++ post) pre.length = .ok (k, pre.length + bs.length))
      ∧ (wfV v = true → ∀ bs, encodeNext v = .ok bs →
        ∀ (pre post : List Nat) (f : Nat),
          decode (need v + f) (pre ++ bs ++ post) pre.length = .ok (v, pre.length + bs.length))) →
    ∀ (acc : List (PyVal × PyVal)),
      (∀ p ∈ ps, acc.any (fun q => keyBeq q.1 p.1) = false) →
    ∀ (pre post : List Nat) (f : Nat),
      decodeDict (needD ps + f) (pre ++ body ++ TOKEN_END :: post) pre.length acc
        = .ok (acc ++ ps, pre.length + body.length + 1) := by
  intro ps
  induction ps with
  | nil =>
    intro body henc hwf hih acc hacc pre post f
    simp only [encodeDictBody, Except.ok.injEq] at henc
    subst henc
    rw [show needD [] + f = f + 1 from by simp [needD]; omega]
    rw [decodeDict_eval_nil (by
      simp only [List.append_nil]
      exact byteAt_append_head pre TOKEN_END post)]
    simp
  | cons p ps ihp =>
    obtain ⟨k, v⟩ := p
    intro body henc hwf hih acc hacc pre post f
    obtain ⟨ek, ev, tx, h1, h2, h3, hbody⟩ := encodeDictBody_cons_inv henc
    obtain ⟨c, t, hek, htne, hcne⟩ := encodeNext_shape h1
    have hwfparts : isBytesV k = true ∧ wfV v = true
        ∧ (ps.all fun q => keyLt k q.1) = true ∧ wfDictV ps = true := by
      simpa [wfDictV, Bool.and_eq_true, and_assoc] using hwf
    obtain ⟨hkb, hwv, hklt, hwps⟩ := hwfparts
    obtain ⟨s, hks⟩ : ∃ s, k = .bytes s := by
      cases k <;> simp [isBytesV] at hkb
      case bytes s => exact ⟨s, rfl⟩
    rw [show needD ((k, v) :: ps) + f = (need k + (need v + (needD ps + f))) + 1 from by
      simp [needD]; omega]
    have hb : byteAt (pre ++ body ++ TOKEN_END :: post) pre.length = some c := by
      rw [hbody, hek]
      rw [show pre ++ (c :: t ++ ev ++ tx) ++ TOKEN_END :: post
          = pre ++ c :: (t ++ ev ++ tx ++ TOKEN_END :: post) from by simp]
      exact byteAt_append_head pre c _
    have hdec1 : decode (need k + (need v + (needD ps + f)))
        (pre ++ body ++ TOKEN_END :: post) pre.length = .ok (k, pre.length + ek.length) := by
      rw [show pre ++ body ++ TOKEN_END :: post
          = pre ++ ek ++ (ev ++ tx ++ TOKEN_END :: post) from by rw [hbody]; simp]
      exact (hih k v (List.mem_cons_self _ _)).1 (by rw [hks]; rfl) ek h1 pre
        (ev ++ tx ++ TOKEN_END :: post) (need v + (needD ps + f))
    have hdec2 : decode (need v + (need k + (needD ps + f)))
        (pre ++ body ++ TOKEN_END :: post) (pre.length + ek.length)
        = .ok (v, (pre ++ ek).length + ev.length) := by
      rw [show pre.length + ek.length = (pre ++ ek).length from by simp]
      rw [show pre ++ body ++ TOKEN_END :: post
          = (pre ++ ek) ++ ev ++ (tx ++ TOKEN_END :: post) from by rw [hbody]; simp]
      exact (hih k v (List.mem_cons_self _ _)).2 hwv ev h2 (pre ++ ek)
        (tx ++ TOKEN_END :: post) (need k + (needD ps + f))
    have hset : pySetItem acc k v = .ok (acc ++ [(k, v)]) := by
      rw [hks, pySetItem_bytes, odUpdate_not_mem v]
      have := hacc (k, v) (List.mem_cons_self _ _)
      rw [hks] at this
      exact this
    have hdec3 : decodeDict (needD ps + (need k + (need v + f)))
        (pre ++ body ++ TOKEN_END :: post) ((pre ++ ek).length + ev.length)
        (acc ++ [(k, v)]) = .ok (acc ++ (k, v) :: ps, pre.length + body.length + 1) := by
      rw [show (pre ++ ek).length + ev.length = (pre ++ ek ++ ev).length from by
        simp only [List.length_append]]
      rw [show pre ++ body ++ TOKEN_END :: post
          = (pre ++ ek ++ ev) ++ tx ++ TOKEN_END :: post from by rw [hbody]; simp]
      have hacc2 : ∀ p ∈ ps, (acc ++ [(k, v)]).any (fun q => keyBeq q.1 p.1) = false := by
        intro p hp
        rw [List.any_append]
        have ha : acc.any (fun q => keyBeq q.1 p.1) = false :=
          hacc p (List.mem_cons_of_mem _ hp)
        have hlt : keyLt k p.1 = true := by
          have := List.all_eq_true.mp hklt p hp
          exact this
        obtain ⟨s2, hps2⟩ : ∃ s2, p.1 = .bytes s2 := by
          rw [hks] at hlt
          cases hp1 : p.1 <;> rw [hp1] at hlt <;> simp [keyLt] at hlt
          case bytes s2 => exact ⟨s2, rfl⟩
        have hne : keyBeq k p.1 = false := by
          rw [hks, hps2]
          rw [hks, hps2] at hlt
          show (s == s2) = false
          by_contra hcon
          rw [Bool.not_eq_false, beq_iff_eq] at hcon
          subst hcon
          simp [keyLt, lexLtB_irrefl] at hlt
        simp [ha, hne]
      have hres := ihp tx h3 hwps
        (fun k2 v2 hkv => hih k2 v2 (List.mem_cons_of_mem _ hkv))
        (acc ++ [(k, v)]) hacc2 (pre ++ ek ++ ev) post (need k + (need v + f))
      rw [hres]
      have hidx : (pre ++ ek ++ ev).length + tx.length + 1 = pre.length + body.length + 1 := by
        rw [hbody]
        simp only [List.length_append]
        omega
      have hlst : (acc ++ [(k, v)]) ++ ps = acc ++ (k, v) :: ps := by simp
      rw [hidx, hlst]
    rw [show need v + (need k + (needD ps + f)) = need k + (need v + (needD ps + f)) from by
      omega] at hdec2
    rw [show needD ps + (need k + (need v + f)) = need k + (need v + (needD ps + f)) from by
      omega] at hdec3
    exact decodeDict_eval_cons hb hcne hdec1 hdec2 hset hdec3

/-- The in-place round trip: decoding the canonical encoding of any
well-formed value, wherever it sits in a larger buffer, returns that value
and leaves the cursor just past its encoding. -/
theorem decode_encode : ∀ (v : PyVal), wfV v = true → ∀ (bs : List Nat),
    encodeNext v = .ok bs → ∀ (pre post : List Nat) (f : Nat),
      decode (need v + f) (pre ++ bs ++ post) pre.length = .ok (v, pre.length + bs.length) := by
  apply pyval_ind
  · -- integers
    intro n _ bs henc pre post f
    simp only [encodeNext, Except.ok.injEq] at henc
    subst henc
    rw [show need (.int n) + f = f + 1 from by simp [need]; omega]
    rw [show pre ++ (TOKEN_INTEGER :: intStr n ++ [TOKEN_END]) ++ post
        = pre ++ TOKEN_INTEGER :: (intStr n ++ [TOKEN_END] ++ post) from by simp]
    rw [decode_succ_int (peek_append pre TOKEN_INTEGER _ (by simp))]
    rw [show pre ++ TOKEN_INTEGER :: (intStr n ++ [TOKEN_END] ++ post)
        = (pre ++ [TOKEN_INTEGER]) ++ (intStr n ++ TOKEN_END :: post) from by simp]
    rw [show pyConsume pre.length = (pre ++ [TOKEN_INTEGER]).length from by simp [pyConsume]]
    rw [decodeInt_spec (pre ++ [TOKEN_INTEGER]) (intStr n) post (end_not_mem_intStr n)]
    rw [pyInt_intStr]
    show Except.ok (PyVal.int n, (pre ++ [TOKEN_INTEGER]).length + (intStr n).length + 1)
      = Except.ok (PyVal.int n, pre.length + (TOKEN_INTEGER :: intStr n ++ [TOKEN_END]).length)
    rw [show (pre ++ [TOKEN_INTEGER]).length + (intStr n).length + 1
        = pre.length + (TOKEN_INTEGER :: intStr n ++ [TOKEN_END]).length from by
      simp only [List.length_append, List.length_cons, List.length_nil]
      omega]
  · -- byte strings
    intro s _ bs henc pre post f
    simp only [encodeNext, Except.ok.injEq] at henc
    subst henc
    rw [show need (.bytes s) + f = f + 1 from by simp [need]; omega]
    obtain ⟨c, t, heq, hc1, hc2⟩ := natDecAux_head (f := s.length + 1) (m := s.length) (by omega)
    have heq2 : natDec s.length = c :: t := heq
    have hpeek : peek (pre ++ (natDec s.length ++ TOKEN_STRING_SEPARATOR :: s) ++ post)
        pre.length = some c := by
      rw [show pre ++ (natDec s.length ++ TOKEN_STRING_SEPARATOR :: s) ++ post
          = pre ++ c :: (t ++ TOKEN_STRING_SEPARATOR :: s ++ post) from by rw [heq2]; simp]
      exact peek_append pre c _ (by simp)
    rw [decode_succ_digit hpeek (by simp [isDigitB]; omega)]
    rw [decodeString_spec pre s post]
  · -- None is out of model
    intro hwf
    simp [wfV] at hwf
  · -- lists
    intro xs hihmem hwf bs henc pre post f
    simp only [encodeNext] at henc
    cases hb : encodeListBody xs with
    | error e => rw [hb] at henc; simp at henc
    | ok body =>
      rw [hb] at henc
      simp only [Except.ok.injEq] at henc
      subst henc
      rw [show need (.list xs) + f = (needL xs + f) + 1 from by simp [need]; omega]
      have hwl : wfListV xs = true := by
        simpa [wfV] using hwf
      have hpeek : peek (pre ++ (TOKEN_LIST :: body ++ [TOKEN_END]) ++ post) pre.length
          = some TOKEN_LIST := by
        rw [show pre ++ (TOKEN_LIST :: body ++ [TOKEN_END]) ++ post
            = pre ++ TOKEN_LIST :: (body ++ [TOKEN_END] ++ post) from by simp]
        exact peek_append pre TOKEN_LIST _ (by simp)
      have hloop : decodeList (needL xs + f)
          (pre ++ (TOKEN_LIST :: body ++ [TOKEN_END]) ++ post) (pre.length + 1)
          = .ok (xs, pre.length + (TOKEN_LIST :: body ++ [TOKEN_END]).length) := by
        rw [show pre ++ (TOKEN_LIST :: body ++ [TOKEN_END]) ++ post
            = (pre ++ [TOKEN_LIST]) ++ body ++ TOKEN_END :: post from by simp]
        rw [show pre.length + 1 = (pre ++ [TOKEN_LIST]).length from by simp]
        rw [decodeList_encode xs body hb hwl (fun x hx => hihmem x hx) (pre ++ [TOKEN_LIST])
          post f]
        have : (pre ++ [TOKEN_LIST]).length + body.length + 1
            = pre.length + (TOKEN_LIST :: body ++ [TOKEN_END]).length := by
          simp only [List.length_append, List.length_cons, List.length_nil]
          omega
        rw [this]
      exact decode_list_ok hpeek hloop
  · -- dicts
    intro ps hihmem hwf bs henc pre post f
    simp only [encodeNext] at henc
    cases hb : encodeDictBody ps with
    | error e => rw [hb] at henc; simp at henc
    | ok body =>
      rw [hb] at henc
      simp only [Except.ok.injEq] at henc
      subst henc
      rw [show need (.dict ps) + f = (needD ps + f) + 1 from by simp [need]; omega]
      have hwd : wfDictV ps = true := by
        simpa [wfV] using hwf
      have hpeek : peek (pre ++ (TOKEN_DICT :: body ++ [TOKEN_END]) ++ post) pre.length
          = some TOKEN_DICT := by
        rw [show pre ++ (TOKEN_DICT :: body ++ [TOKEN_END]) ++ post
            = pre ++ TOKEN_DICT :: (body ++ [TOKEN_END] ++ post) from by simp]
        exact peek_append pre TOKEN_DICT _ (by simp)
      have hloop : decodeDict (needD ps + f)
          (pre ++ (TOKEN_DICT :: body ++ [TOKEN_END]) ++ post) (pre.length + 1) []
          = .ok (ps, pre.length + (TOKEN_DICT :: body ++ [TOKEN_END]).length) := by
        rw [show pre ++ (TOKEN_DICT :: body ++ [TOKEN_END]) ++ post
            = (pre ++ [TOKEN_DICT]) ++ body ++ TOKEN_END :: post from by simp]
        rw [show pre.length + 1 = (pre ++ [TOKEN_DICT]).length from by simp]
        have hres := decodeDict_encode ps body hb hwd
          (fun k v hkv => hihmem k v hkv) [] (by intro p hp; rfl)
          (pre ++ [TOKEN_DICT]) post f
        rw [List.nil_append] at hres
        rw [hres]
        have : (pre ++ [TOKEN_DICT]).length + body.length + 1
            = pre.length + (TOKEN_DICT :: body ++ [TOKEN_END]).length := by
          simp only [List.length_append, List.length_cons, List.length_nil]
          omega
        rw [this]
      exact decode_dict_ok hpeek hloop

/-! ## Fuel bound: the wrapper's fuel dominates the need of any encoding -/

/-- List-loop fuel is bounded by twice the body length plus two. -/
theorem needL_le : ∀ (xs : List PyVal) (body : List Nat), encodeListBody xs = .ok body →
    (∀ x ∈ xs, ∀ bs, encodeNext x = .ok bs → need x + 1 ≤ 2 * bs.length) →
    needL xs ≤ 2 * body.length + 2 := by
  intro xs
  induction xs with
  | nil =>
    intro body h _
    simp only [encodeListBody, Except.ok.injEq] at h
    subst h
    simp [needL]
  | cons x xs ih =>
    intro body h hmem
    obtain ⟨hx, tx, h1, h2, hb⟩ := encodeListBody_cons_inv h
    have hhx := hmem x (List.mem_cons_self _ _) hx h1
    have htx := ih tx h2 (fun z hz => hmem z (List.mem_cons_of_mem _ hz))
    subst hb
    simp only [needL, List.length_append]
    omega

/-- Dict-loop fuel is bounded by twice the body length plus two. -/
theorem needD_le : ∀ (ps : List (PyVal × PyVal)) (body : List Nat),
    encodeDictBody ps = .ok body →
    (∀ k v, (k, v) ∈ ps →
      (∀ bs, encodeNext k = .ok bs → need k + 1 ≤ 2 * bs.length)
      ∧ (∀ bs, encodeNext v = .ok bs → need v + 1 ≤ 2 * bs.length)) →
    needD ps ≤ 2 * body.length + 2 := by
  intro ps
  induction ps with
  | nil =>
    intro body h _
    simp only [encodeDictBody, Except.ok.injEq] at h
    subst h
    simp [needD]
  | cons p ps ih =>
    obtain ⟨k, v⟩ := p
    intro body h hmem
    obtain ⟨ek, ev, tx, h1, h2, h3, hb⟩ := encodeDictBody_cons_inv h
    have hhk := (hmem k v (List.mem_cons_self _ _)).1 ek h1
    have hhv := (hmem k v (List.mem_cons_self _ _)).2 ev h2
    have htx := ih tx h3 (fun k2 v2 hkv => hmem k2 v2 (List.mem_cons_of_mem _ hkv))
    subst hb
    simp only [needD, List.length_append]
    omega

/-- The fuel needed to decode an encoding is under twice its length. -/
theorem need_le : ∀ (v : PyVal) (bs : List Nat), encodeNext v = .ok bs →
    need v + 1 ≤ 2 * bs.length := by
  apply pyval_ind
  · intro n bs henc
    simp only [encodeNext, Except.ok.injEq] at henc
    subst henc
    simp only [need, List.length_append, List.length_cons, List.length_nil]
    omega
  · intro s bs henc
    simp only [encodeNext, Except.ok.injEq] at henc
    subst henc
    obtain ⟨c, t, heq, -, -⟩ := natDecAux_head (f := s.length + 1) (m := s.length) (by omega)
    have heq2 : natDec s.length = c :: t := heq
    rw [heq2]
    simp only [need, List.length_append, List.length_cons]
    omega
  · intro bs henc
    simp [encodeNext] at henc
  · intro xs hihmem bs henc
    simp only [encodeNext] at henc
    cases hb : encodeListBody xs with
    | error e => rw [hb] at henc; simp at henc
    | ok body =>
      rw [hb] at henc
      simp only [Except.ok.injEq] at henc
      subst henc
      have hL := needL_le xs body hb hihmem
      simp only [need, List.length_append, List.length_cons, List.length_nil]
      omega
  · intro ps hihmem bs henc
    simp only [encodeNext] at henc
    cases hb : encodeDictBody ps with
    | error e => rw [hb] at henc; simp at henc
    | ok body =>
      rw [hb] at henc
      simp only [Except.ok.injEq] at henc
      subst henc
      have hD := needD_le ps body hb hihmem
      simp only [need, List.length_append, List.length_cons, List.length_nil]
      omega

/-- C1: decoding the encoder's output returns the original value, for every
value of the spec's `Value` model — integers, byte strings, lists, and maps
with sorted byte-string keys — including the empty string, list, and map. -/
theorem roundtrip_decode_encode (v : PyVal) (bs : List Nat)
    (hwf : wfV v = true) (henc : encodeNext v = .ok bs) :
    decodeBytes bs = .ok v := by
  have hle := need_le v bs henc
  have h := decode_encode v hwf bs henc [] [] (2 * bs.length + 2 - need v)
  rw [show need v + (2 * bs.length + 2 - need v) = 2 * bs.length + 2 from by omega] at h
  simp only [List.nil_append, List.append_nil, List.length_nil] at h
  rw [decodeBytes, h]
  rfl

/-- C1 witness: a value containing a negative integer, a byte string, a
sorted two-key map (with an empty key and empty-map-free values), and the
empty list, round-trips through concrete bytes. -/
theorem roundtrip_decode_encode_witness :
    wfV (PyVal.list [.int (-3), .bytes [115, 112],
        .dict [(.bytes [], .int 0), (.bytes [97], .bytes [98])], .list []]) = true
    ∧ encodeNext (PyVal.list [.int (-3), .bytes [115, 112],
        .dict [(.bytes [], .int 0), (.bytes [97], .bytes [98])], .list []])
      = .ok [108, 105, 45, 51, 101, 50, 58, 115, 112, 100, 48, 58, 105, 48, 101,
          49, 58, 97, 49, 58, 98, 101, 108, 101, 101]
    ∧ decodeBytes [108, 105, 45, 51, 101, 50, 58, 115, 112, 100, 48, 58, 105, 48, 101,
          49, 58, 97, 49, 58, 98, 101, 108, 101, 101]
      = .ok (PyVal.list [.int (-3), .bytes [115, 112],
          .dict [(.bytes [], .int 0), (.bytes [97], .bytes [98])], .list []]) :=
  ⟨rfl, rfl, roundtrip_decode_encode _ _ rfl rfl⟩

/-! ## C7: totality of the encoder on the model -/

/-- A failing list body comes from a failing element. -/
theorem encodeListBody_error : ∀ {xs : List PyVal} {e : PyErr},
    encodeListBody xs = .error e → ∃ x ∈ xs, encodeNext x = .error e := by
  intro xs
  induction xs with
  | nil => intro e h; simp [encodeListBody] at h
  | cons x xs ih =>
    intro e h
    simp only [encodeListBody] at h
    cases h1 : encodeNext x with
    | error e1 =>
      rw [h1] at h
      have h' : (Except.error e1 : Except PyErr (List Nat)) = .error e := h
      simp only [Except.error.injEq] at h'
      exact ⟨x, List.mem_cons_self _ _, by rw [h1, h']⟩
    | ok hx =>
      rw [h1] at h
      cases h2 : encodeListBody xs with
      | error e2 =>
        rw [h2] at h
        have h' : (Except.error e2 : Except PyErr (List Nat)) = .error e := h
        simp only [Except.error.injEq] at h'
        obtain ⟨y, hy, hey⟩ := ih h2
        exact ⟨y, List.mem_cons_of_mem _ hy, by rw [hey, h']⟩
      | ok tx =>
        rw [h2] at h
        have h' : (Except.ok (hx ++ tx) : Except PyErr (List Nat)) = .error e := h
        simp at h'

/-- A failing dict body comes from a failing key or value: the `"Bad dict"`
branch is unreachable, because encodings are never empty. -/
theorem encodeDictBody_error : ∀ {ps : List (PyVal × PyVal)} {e : PyErr},
    encodeDictBody ps = .error e →
    ∃ p ∈ ps, encodeNext p.1 = .error e ∨ encodeNext p.2 = .error e := by
  intro ps
  induction ps with
  | nil => intro e h; simp [encodeDictBody] at h
  | cons p ps ih =>
    obtain ⟨k, v⟩ := p
    intro e h
    simp only [encodeDictBody] at h
    cases h1 : encodeNext k with
    | error e1 =>
      rw [h1] at h
      have h' : (Except.error e1 : Except PyErr (List Nat)) = .error e := h
      simp only [Except.error.injEq] at h'
      exact ⟨(k, v), List.mem_cons_self _ _, Or.inl (by rw [h1, h'])⟩
    | ok ek =>
      rw [h1] at h
      cases h2 : encodeNext v with
      | error e2 =>
        rw [h2] at h
        have h' : (Except.error e2 : Except PyErr (List Nat)) = .error e := h
        simp only [Except.error.injEq] at h'
        exact ⟨(k, v), List.mem_cons_self _ _, Or.inr (by rw [h2, h'])⟩
      | ok ev =>
        rw [h2] at h
        have h' : (if ek ≠ [] ∧ ev ≠ [] then
            (match encodeDictBody ps with
             | Except.error e => Except.error e
             | Except.ok t => Except.ok (ek ++ ev ++ t))
          else (Except.error PyErr.runtimeError : Except PyErr (List Nat))) = .error e := h
        rw [if_pos ⟨encodeNext_ne_nil h1, encodeNext_ne_nil h2⟩] at h'
        cases h3 : encodeDictBody ps with
        | error e3 =>
          rw [h3] at h'
          have h'' : (Except.error e3 : Except PyErr (List Nat)) = .error e := h'
          simp only [Except.error.injEq] at h''
          obtain ⟨q, hq, heq⟩ := ih h3
          exact ⟨q, List.mem_cons_of_mem _ hq, by rw [← h'']; exact heq⟩
        | ok tx =>
          rw [h3] at h'
          have h'' : (Except.ok (ek ++ ev ++ tx) : Except PyErr (List Nat)) = .error e := h'
          simp at h''

/-- A well-formed list of well-encodable elements has a list body. -/
theorem encodeListBody_total : ∀ (xs : List PyVal),
    (∀ x ∈ xs, wfV x = true → ∃ bs, encodeNext x = .ok bs ∧ bs ≠ []) →
    wfListV xs = true → ∃ body, encodeListBody xs = .ok body := by
  intro xs
  induction xs with
  | nil => intro _ _; exact ⟨[], rfl⟩
  | cons x xs ih =>
    intro hmem hwf
    have hwx : wfV x = true ∧ wfListV xs = true := by
      simpa [wfListV, Bool.and_eq_true] using hwf
    obtain ⟨hx, h1, -⟩ := hmem x (List.mem_cons_self _ _) hwx.1
    obtain ⟨tx, h2⟩ := ih (fun z hz => hmem z (List.mem_cons_of_mem _ hz)) hwx.2
    exact ⟨hx ++ tx, by simp only [encodeListBody]; rw [h1, h2]⟩

/-- A well-formed pair list of well-encodable keys and values has a dict
body. -/
theorem encodeDictBody_total : ∀ (ps : List (PyVal × PyVal)),
    (∀ k v, (k, v) ∈ ps →
      (wfV k = true → ∃ bs, encodeNext k = .ok bs ∧ bs ≠ [])
      ∧ (wfV v = true → ∃ bs, encodeNext v = .ok bs ∧ bs ≠ [])) →
    wfDictV ps = true → ∃ body, encodeDictBody ps = .ok body := by
  intro ps
  induction ps with
  | nil => intro _ _; exact ⟨[], rfl⟩
  | cons p ps ih =>
    obtain ⟨k, v⟩ := p
    intro hmem hwf
    have hwfparts : isBytesV k = true ∧ wfV v = true
        ∧ (ps.all fun q => keyLt k q.1) = true ∧ wfDictV ps = true := by
      simpa [wfDictV, Bool.and_eq_true, and_assoc] using hwf
    obtain ⟨hkb, hwv, -, hwps⟩ := hwfparts
    have hwk : wfV k = true := by
      cases k with
      | int n => rfl
      | bytes s2 => rfl
      | list l => simp [isBytesV] at hkb
      | dict d2 => simp [isBytesV] at hkb
      | none => simp [isBytesV] at hkb
    obtain ⟨ek, h1, hek⟩ := (hmem k v (List.mem_cons_self _ _)).1 hwk
    obtain ⟨ev, h2, hev⟩ := (hmem k v (List.mem_cons_self _ _)).2 hwv
    obtain ⟨tx, h3⟩ := ih (fun k2 v2 hkv => hmem k2 v2 (List.mem_cons_of_mem _ hkv)) hwps
    refine ⟨ek ++ ev ++ tx, ?_⟩
    simp only [encodeDictBody]
    rw [h1, h2]
    have hred : (if ek ≠ [] ∧ ev ≠ [] then
        (match encodeDictBody ps with
         | Except.error e => Except.error e
         | Except.ok t => Except.ok (ek ++ ev ++ t))
      else (Except.error PyErr.runtimeError : Except PyErr (List Nat)))
        = .ok (ek ++ ev ++ tx) := by
      rw [if_pos ⟨hek, hev⟩, h3]
    exact hred

/-- C7: the encoder is total on the model: every well-formed value encodes
to a nonempty byte string; the only possible failure on any value is
`TypeError` (an out-of-model value), and in particular the
`RuntimeError("Bad dict")` branch is unreachable. -/
theorem encode_total : ∀ (v : PyVal),
    (wfV v = true → ∃ bs, encodeNext v = .ok bs ∧ bs ≠ [])
    ∧ (∀ e, encodeNext v = .error e → e = .typeError) := by
  apply pyval_ind
  · intro n
    refine ⟨fun _ => ⟨TOKEN_INTEGER :: intStr n ++ [TOKEN_END], rfl, by simp⟩, fun e he => ?_⟩
    simp [encodeNext] at he
  · intro s
    refine ⟨fun _ => ⟨natDec s.length ++ TOKEN_STRING_SEPARATOR :: s, rfl, by simp⟩,
      fun e he => ?_⟩
    simp [encodeNext] at he
  · refine ⟨fun h => by simp [wfV] at h, fun e he => ?_⟩
    simp only [encodeNext, Except.error.injEq] at he
    exact he.symm
  · intro xs hihmem
    constructor
    · intro hwf
      have hwl : wfListV xs = true := by simpa [wfV] using hwf
      obtain ⟨body, hb⟩ := encodeListBody_total xs (fun x hx => (hihmem x hx).1) hwl
      refine ⟨TOKEN_LIST :: body ++ [TOKEN_END], ?_, by simp⟩
      simp only [encodeNext]
      rw [hb]
    · intro e he
      simp only [encodeNext] at he
      cases hb : encodeListBody xs with
      | ok body => rw [hb] at he; simp at he
      | error e1 =>
        rw [hb] at he
        have h' : (Except.error e1 : Except PyErr (List Nat)) = .error e := he
        simp only [Except.error.injEq] at h'
        obtain ⟨x, hx, hex⟩ := encodeListBody_error hb
        exact (hihmem x hx).2 e (by rw [← h']; exact hex)
  · intro ps hihmem
    constructor
    · intro hwf
      have hwd : wfDictV ps = true := by simpa [wfV] using hwf
      obtain ⟨body, hb⟩ := encodeDictBody_total ps
        (fun k v hkv => ⟨((hihmem k v hkv).1).1, ((hihmem k v hkv).2).1⟩) hwd
      refine ⟨TOKEN_DICT :: body ++ [TOKEN_END], ?_, by simp⟩
      simp only [encodeNext]
      rw [hb]
    · intro e he
      simp only [encodeNext] at he
      cases hb : encodeDictBody ps with
      | ok body => rw [hb] at he; simp at he
      | error e1 =>
        rw [hb] at he
        have h' : (Except.error e1 : Except PyErr (List Nat)) = .error e := he
        simp only [Except.error.injEq] at h'
        obtain ⟨p, hp, hep⟩ := encodeDictBody_error hb
        rcases hep with hep | hep
        · exact ((hihmem p.1 p.2 (by simpa using hp)).1).2 e (by rw [← h']; exact hep)
        · exact ((hihmem p.1 p.2 (by simpa using hp)).2).2 e (by rw [← h']; exact hep)

/-- C7 witness: a concrete well-formed map encodes successfully and
nonemptily. -/
theorem encode_total_witness :
    wfV (PyVal.dict [(.bytes [97], .int 5)]) = true
    ∧ ∃ bs, encodeNext (PyVal.dict [(.bytes [97], .int 5)]) = .ok bs ∧ bs ≠ [] :=
  ⟨rfl, (encode_total (PyVal.dict [(.bytes [97], .int 5)])).1 rfl⟩

/-! ## C2: integer constructs -/

/-- `_peek` at the start of a buffer of at least two bytes. -/
theorem peek_cons (c : Nat) (rest : List Nat) (h : rest ≠ []) : peek (c :: rest) 0 = some c := by
  have hp := peek_append [] c rest h
  simpa using hp

/-- C2 counterexample: the decoder accepts leading zeros and `-0`, because
`_decode_int` delegates to Python `int`: `decode(b"i03e")` returns
`Integer(3)` (and `decode(b"i-0e")` returns `Integer(0)`) instead of failing
with `MalformedInput`. -/
theorem decode_i03e_succeeds :
    decodeBytes [105, 48, 51, 101] = .ok (.int 3)
    ∧ decodeBytes [105, 45, 48, 101] = .ok (.int 0) :=
  ⟨rfl, rfl⟩

/-- C2 (amended): on a buffer whose first construct is an integer, the
decoder returns exactly what Python `int` makes of the run between `i` and
`e` — failing with `ValueError` (`MalformedInput`) when the run is empty or
not a valid Python integer literal, and otherwise returning its value;
leading zeros, `-0`, a leading `+`, surrounding whitespace, and underscore
grouping are all accepted. In particular `decode(b"i42e") == Integer(42)`
and `decode(b"i-3e") == Integer(-3)`. -/
theorem decode_int_construct (run : List Nat) (hrun : TOKEN_END ∉ run) :
    decodeBytes (TOKEN_INTEGER :: run ++ [TOKEN_END])
      = match pyInt run with
        | some n => .ok (.int n)
        | Option.none => .error .valueError := by
  rw [decodeBytes]
  rw [show TOKEN_INTEGER :: run ++ [TOKEN_END] = TOKEN_INTEGER :: (run ++ [TOKEN_END]) from by
    simp]
  rw [show 2 * (TOKEN_INTEGER :: (run ++ [TOKEN_END])).length + 2
      = (2 * (TOKEN_INTEGER :: (run ++ [TOKEN_END])).length + 1) + 1 from by omega]
  rw [decode_succ_int (peek_cons TOKEN_INTEGER (run ++ [TOKEN_END]) (by simp))]
  rw [show TOKEN_INTEGER :: (run ++ [TOKEN_END]) = [TOKEN_INTEGER] ++ (run ++ TOKEN_END :: [])
    from by simp]
  rw [show pyConsume 0 = ([TOKEN_INTEGER] : List Nat).length from rfl]
  rw [decodeInt_spec [TOKEN_INTEGER] run [] hrun]
  cases hp : pyInt run with
  | some n => rfl
  | none => rfl

/-- C2 witness: `decode(b"i42e") == Integer(42)` by the amended theorem. -/
theorem decode_int_construct_witness :
    TOKEN_END ∉ ([52, 50] : List Nat)
    ∧ decodeBytes [TOKEN_INTEGER, 52, 50, TOKEN_END] = .ok (.int 42) := by
  refine ⟨by decide, ?_⟩
  rw [show ([TOKEN_INTEGER, 52, 50, TOKEN_END] : List Nat)
      = TOKEN_INTEGER :: [52, 50] ++ [TOKEN_END] from rfl]
  rw [decode_int_construct [52, 50] (by decide)]
  rfl

/-! ## C3: truncated strings -/

/-- C3: whenever the declared length of a string construct exceeds the bytes
remaining after the `:` separator, the decoder fails with `IndexError`
(`TruncatedInput`), never returning a short string. The header is any
digit-led, separator-free run that Python `int` parses as `L`. -/
theorem decode_truncated_string (h0 : Nat) (hd s : List Nat) (L : Int)
    (hdig : isDigitB h0 = true) (hsep : TOKEN_STRING_SEPARATOR ∉ h0 :: hd)
    (hlen : pyInt (h0 :: hd) = some L) (hgt : (s.length : Int) < L) :
    decodeBytes ((h0 :: hd) ++ TOKEN_STRING_SEPARATOR :: s) = .error .indexError := by
  rw [decodeBytes]
  rw [show 2 * (((h0 :: hd) ++ TOKEN_STRING_SEPARATOR :: s) : List Nat).length + 2
      = (2 * ((h0 :: hd) ++ TOKEN_STRING_SEPARATOR :: s).length + 1) + 1 from by omega]
  have hpeek : peek ((h0 :: hd) ++ TOKEN_STRING_SEPARATOR :: s) 0 = some h0 := by
    rw [show (h0 :: hd) ++ TOKEN_STRING_SEPARATOR :: s
        = h0 :: (hd ++ TOKEN_STRING_SEPARATOR :: s) from by simp]
    exact peek_cons h0 _ (by simp)
  rw [decode_succ_digit hpeek hdig]
  have hru : readUntil ((h0 :: hd) ++ TOKEN_STRING_SEPARATOR :: s) 0 TOKEN_STRING_SEPARATOR
      = .ok (h0 :: hd, (h0 :: hd).length + 1) := by
    have h := readUntil_spec [] (h0 :: hd) TOKEN_STRING_SEPARATOR s hsep
    simpa using h
  rw [decodeString_eval hru, hlen]
  show ((match pyRead ((h0 :: hd) ++ TOKEN_STRING_SEPARATOR :: s) ((h0 :: hd).length + 1) L with
    | .error e => (.error e : Except PyErr (PyVal × Nat))
    | .ok (s2, j2) => .ok (.bytes s2, j2))).map Prod.fst = .error .indexError
  have hpr : pyRead ((h0 :: hd) ++ TOKEN_STRING_SEPARATOR :: s) ((h0 :: hd).length + 1) L
      = .error .indexError := by
    rw [pyRead, if_pos]
    simp only [List.length_append, List.length_cons]
    push_cast
    omega
  rw [hpr]
  rfl

/-- C3 witness: `decode(b"4:sp")` fails with `TruncatedInput` (`IndexError`):
header `"4"`, payload `"sp"` of 2 bytes. -/
theorem decode_truncated_string_witness :
    isDigitB 52 = true ∧ TOKEN_STRING_SEPARATOR ∉ ([52] : List Nat)
    ∧ pyInt [52] = some 4 ∧ (([115, 112] : List Nat).length : Int) < 4
    ∧ decodeBytes [52, 58, 115, 112] = .error .indexError := by
  refine ⟨by decide, by decide, rfl, by decide, ?_⟩
  rw [show ([52, 58, 115, 112] : List Nat)
      = (52 :: []) ++ TOKEN_STRING_SEPARATOR :: [115, 112] from rfl]
  exact decode_truncated_string 52 [] [115, 112] 4 (by decide) (by decide) rfl (by decide)

/-! ## C10: short buffers and two-byte constructs -/

/-- C10 counterexample: `decode(b"le")`, `decode(b"de")` and `decode(b"0:")`
succeed (empty list, empty map, empty byte string) — `_peek`'s off-by-one
never fires for them, because the container loops and string reads inspect
`data[index:index+1]` directly rather than peeking. -/
theorem decode_two_byte_constructs :
    decodeBytes [TOKEN_LIST, TOKEN_END] = .ok (.list [])
    ∧ decodeBytes [TOKEN_DICT, TOKEN_END] = .ok (.dict [])
    ∧ decodeBytes [48, TOKEN_STRING_SEPARATOR] = .ok (.bytes []) :=
  ⟨rfl, rfl, rfl⟩

/-- C10 (amended): the off-by-one in `_peek` (`index + 1 >= len`) makes the
top-level decode fail with `EOFError` (`UnexpectedEnd`) exactly on buffers
of length at most one, where the opening token itself is unpeekable; every
buffer the claim lists (`b"le"`, `b"de"`, `b"0:"`) has length two and
decodes successfully. -/
theorem decode_short_buffer (d : List Nat) (h : d.length ≤ 1) :
    decodeBytes d = .error .eofError := by
  rcases d with _ | ⟨c, _ | ⟨c2, t⟩⟩
  · rfl
  · rfl
  · simp at h

/-- C10 witness: the one-byte buffer `b"i"` fails with `EOFError`. -/
theorem decode_short_buffer_witness :
    ([TOKEN_INTEGER] : List Nat).length ≤ 1
    ∧ decodeBytes [TOKEN_INTEGER] = .error .eofError :=
  ⟨by decide, decode_short_buffer [TOKEN_INTEGER] (by decide)⟩

/-! ## C9: the cursor never moves backwards -/

/-- A successful `_peek` reads the byte at the cursor. -/
theorem peek_byteAt {d : List Nat} {i : Nat} {c : Nat} (h : peek d i = some c) :
    byteAt d i = some c := by
  rw [peek] at h
  split at h
  · simp at h
  · exact h

/-- A nonempty `_read_until` result starts with the byte at the cursor. -/
theorem readUntil_head {d : List Nat} {i tok : Nat} {bs : List Nat} {j : Nat}
    (h : readUntil d i tok = .ok (bs, j)) : bs = [] ∨ bs.head? = byteAt d i := by
  rw [readUntil] at h
  cases hf : findFrom d tok i with
  | none => rw [hf] at h; simp at h
  | some occ =>
    rw [hf] at h
    simp only [Except.ok.injEq, Prod.mk.injEq] at h
    obtain ⟨hbs, -⟩ := h
    by_cases hocc : occ - i = 0
    · left; rw [← hbs, hocc]; simp
    · right
      rw [← hbs, byteAt]
      exact head?_take (by omega)

/-- `_decode_int` never rewinds. -/
theorem decodeInt_le {d : List Nat} {i : Nat} {r : PyVal} {j : Nat}
    (h : decodeInt d i = .ok (r, j)) : i ≤ j := by
  rw [decodeInt] at h
  cases hru : readUntil d i TOKEN_END with
  | error e => rw [hru] at h; simp at h
  | ok p =>
    obtain ⟨digits, j1⟩ := p
    rw [hru] at h
    have hj1 := readUntil_advance d i TOKEN_END digits j1 hru
    have h' : (match pyInt digits with
      | some n => (Except.ok (PyVal.int n, j1) : Except PyErr (PyVal × Nat))
      | Option.none => .error .valueError) = .ok (r, j) := h
    cases hp : pyInt digits with
    | some n =>
      rw [hp] at h'
      simp only [Except.ok.injEq, Prod.mk.injEq] at h'
      omega
    | none => rw [hp] at h'; simp at h'

/-- `_decode_string` from a digit byte never rewinds. -/
theorem decodeString_le {d : List Nat} {i : Nat} {c : Nat} {r : PyVal} {j : Nat}
    (hb : byteAt d i = some c) (hdig : isDigitB c = true)
    (h : decodeString d i = .ok (r, j)) : i ≤ j := by
  rw [decodeString] at h
  cases hru : readUntil d i TOKEN_STRING_SEPARATOR with
  | error e => rw [hru] at h; simp at h
  | ok p =>
    obtain ⟨digits, j1⟩ := p
    rw [hru] at h
    have hj1 := readUntil_advance d i TOKEN_STRING_SEPARATOR digits j1 hru
    have h' : (match pyInt digits with
      | Option.none => (.error .valueError : Except PyErr (PyVal × Nat))
      | some len => match pyRead d j1 len with
        | .error e => .error e
        | .ok (s2, j2) => .ok (.bytes s2, j2)) = .ok (r, j) := h
    cases hp : pyInt digits with
    | none => rw [hp] at h'; simp at h'
    | some L =>
      rw [hp] at h'
      have h'' : (match pyRead d j1 L with
        | .error e => (.error e : Except PyErr (PyVal × Nat))
        | .ok (s2, j2) => .ok (.bytes s2, j2)) = .ok (r, j) := h'
      have hL : 0 ≤ L := by
        rcases readUntil_head hru with hnil | hhead
        · rw [hnil] at hp
          exact absurd hp (by simp [pyInt, stripWs])
        · rw [hb] at hhead
          cases digits with
          | nil => simp at hhead
          | cons c0 t0 =>
            simp only [List.head?_cons, Option.some.injEq] at hhead
            subst hhead
            exact pyInt_digit_head_nonneg hdig hp
      cases hpr : pyRead d j1 L with
      | error e => rw [hpr] at h''; simp at h''
      | ok q =>
        obtain ⟨s2, j2⟩ := q
        rw [hpr] at h''
        simp only [Except.ok.injEq, Prod.mk.injEq] at h''
        have hadv := pyRead_advance d j1 L s2 j2 hpr hL
        omega

/-- Simultaneous monotonicity of the three decoder loops, by induction on
fuel. -/
theorem decode_mono_all : ∀ (fuel : Nat),
    (∀ d i r j, decode fuel d i = .ok (r, j) → i ≤ j)
    ∧ (∀ d i xs j, decodeList fuel d i = .ok (xs, j) → i ≤ j)
    ∧ (∀ d i acc ps j, decodeDict fuel d i acc = .ok (ps, j) → i ≤ j) := by
  intro fuel
  induction fuel with
  | zero =>
    refine ⟨?_, ?_, ?_⟩
    · intro d i r j h; simp [decode] at h
    · intro d i xs j h; simp [decodeList] at h
    · intro d i acc ps j h; simp [decodeDict] at h
  | succ f ih =>
    obtain ⟨ihD, ihL, ihDD⟩ := ih
    refine ⟨?_, ?_, ?_⟩
    · intro d i r j h
      simp only [decode] at h
      cases hpeek : peek d i with
      | none => rw [hpeek] at h; simp at h
      | some c =>
        rw [hpeek] at h
        have h' : (if c = TOKEN_INTEGER then decodeInt d (pyConsume i)
          else if c = TOKEN_LIST then
            (match decodeList f d (pyConsume i) with
             | .ok (xs, j2) => .ok (.list xs, j2)
             | .error e => .error e)
          else if c = TOKEN_DICT then
            (match decodeDict f d (pyConsume i) [] with
             | .ok (ps, j2) => .ok (.dict ps, j2)
             | .error e => .error e)
          else if c = TOKEN_END then .ok (.none, i)
          else if isDigitB c then decodeString d i
          else .error .runtimeError) = .ok (r, j) := h
        split_ifs at h' with hc1 hc2 hc3 hc4 hc5
        · have := decodeInt_le h'
          simp only [pyConsume] at this
          omega
        · cases hl : decodeList f d (pyConsume i) with
          | error e => rw [hl] at h'; simp at h'
          | ok q =>
            obtain ⟨xs, j2⟩ := q
            rw [hl] at h'
            simp only [Except.ok.injEq, Prod.mk.injEq] at h'
            have := ihL d (pyConsume i) xs j2 hl
            simp only [pyConsume] at this
            omega
        · cases hl : decodeDict f d (pyConsume i) [] with
          | error e => rw [hl] at h'; simp at h'
          | ok q =>
            obtain ⟨ps, j2⟩ := q
            rw [hl] at h'
            simp only [Except.ok.injEq, Prod.mk.injEq] at h'
            have := ihDD d (pyConsume i) [] ps j2 hl
            simp only [pyConsume] at this
            omega
        · simp only [Except.ok.injEq, Prod.mk.injEq] at h'
          omega
        · exact decodeString_le (peek_byteAt hpeek) hc5 h'
    · intro d i xs j h
      simp only [decodeList] at h
      split_ifs at h with hb
      · simp only [Except.ok.injEq, Prod.mk.injEq, pyConsume] at h
        omega
      · cases hd1 : decode f d i with
        | error e => rw [hd1] at h; simp at h
        | ok q =>
          obtain ⟨x, j1⟩ := q
          rw [hd1] at h
          have h' : (match decodeList f d j1 with
            | .error e => (.error e : Except PyErr (List PyVal × Nat))
            | .ok (xs2, j2) => .ok (x :: xs2, j2)) = .ok (xs, j) := h
          cases hd2 : decodeList f d j1 with
          | error e => rw [hd2] at h'; simp at h'
          | ok q2 =>
            obtain ⟨xs2, j2⟩ := q2
            rw [hd2] at h'
            simp only [Except.ok.injEq, Prod.mk.injEq] at h'
            have ha := ihD d i x j1 hd1
            have hb2 := ihL d j1 xs2 j2 hd2
            omega
    · intro d i acc ps j h
      simp only [decodeDict] at h
      split_ifs at h with hb
      · simp only [Except.ok.injEq, Prod.mk.injEq, pyConsume] at h
        omega
      · cases hd1 : decode f d i with
        | error e => rw [hd1] at h; simp at h
        | ok q =>
          obtain ⟨k, j1⟩ := q
          rw [hd1] at h
          have h' : (match decode f d j1 with
            | .error e => (.error e : Except PyErr (List (PyVal × PyVal) × Nat))
            | .ok (v, j2) =>
              match pySetItem acc k v with
              | .error e => .error e
              | .ok acc2 => decodeDict f d j2 acc2) = .ok (ps, j) := h
          cases hd2 : decode f d j1 with
          | error e => rw [hd2] at h'; simp at h'
          | ok q2 =>
            obtain ⟨v, j2⟩ := q2
            rw [hd2] at h'
            have h'' : (match pySetItem acc k v with
              | .error e => (.error e : Except PyErr (List (PyVal × PyVal) × Nat))
              | .ok acc2 => decodeDict f d j2 acc2) = .ok (ps, j) := h'
            cases hset : pySetItem acc k v with
            | error e => rw [hset] at h''; simp at h''
            | ok acc2 =>
              rw [hset] at h''
              have ha := ihD d i k j1 hd1
              have hb2 := ihD d j1 v j2 hd2
              have hc2 := ihDD d j2 acc2 ps j h''
              omega

/-- C9: the decoder's cursor is monotonic — a successful `decode` never
returns a smaller index than it started from — and each primitive read
advances it by exactly the bytes it consumed: `_read` by its (nonnegative)
length, `_read_until` by the returned run plus the token (`_peek` reads
without moving the cursor and `_consume` advances by exactly one, by
construction). -/
theorem cursor_monotone :
    (∀ (fuel : Nat) (d : List Nat) (i : Nat) (r : PyVal) (j : Nat),
      decode fuel d i = .ok (r, j) → i ≤ j)
    ∧ (∀ (d : List Nat) (i : Nat) (len : Int) (bs : List Nat) (j : Nat),
      0 ≤ len → pyRead d i len = .ok (bs, j) → j = i + bs.length)
    ∧ (∀ (d : List Nat) (i tok : Nat) (bs : List Nat) (j : Nat),
      readUntil d i tok = .ok (bs, j) → j = i + bs.length + 1) :=
  ⟨fun fuel d i r j h => (decode_mono_all fuel).1 d i r j h,
   fun d i len bs j hlen h => (pyRead_advance d i len bs j h hlen).1,
   fun d i tok bs j h => readUntil_advance d i tok bs j h⟩

/-- C9 witness: a concrete decode advances the cursor from 0 to 3; a
concrete `_read` of 2 bytes moves the cursor by 2; a concrete `_read_until`
moves it by the run plus the token. -/
theorem cursor_monotone_witness :
    decode 8 [105, 49, 101] 0 = .ok (.int 1, 3) ∧ (0 : Nat) ≤ 3
    ∧ (0 : Int) ≤ 2 ∧ pyRead [7, 8, 9] 1 2 = .ok ([8, 9], 3)
    ∧ (3 : Nat) = 1 + ([8, 9] : List Nat).length
    ∧ readUntil [49, 101] 0 101 = .ok ([49], 2)
    ∧ (2 : Nat) = 0 + ([49] : List Nat).length + 1 :=
  ⟨rfl, cursor_monotone.1 8 [105, 49, 101] 0 (.int 1) 3 rfl, by decide, rfl,
   cursor_monotone.2.1 [7, 8, 9] 1 2 [8, 9] 3 (by decide) rfl, rfl,
   cursor_monotone.2.2 [49, 101] 0 101 [49] 2 rfl⟩

/-! ## C6: statistics accessors -/

/-- C6: each of `interval`, `complete`, `incomplete` returns `0` when its
key is absent, the stored integer when the key holds an `Integer`, and fails
with `TypeError` (`TypeMismatch`) when the key holds anything else. -/
theorem stats_accessors :
    (∀ resp, dictGet resp (.bytes bInterval) = Option.none → interval resp = .ok 0)
    ∧ (∀ resp n, dictGet resp (.bytes bInterval) = some (.int n) → interval resp = .ok n)
    ∧ (∀ resp w, dictGet resp (.bytes bInterval) = some w → (∀ n, w ≠ .int n) →
        interval resp = .error .typeError)
    ∧ (∀ resp, dictGet resp (.bytes bComplete) = Option.none → complete resp = .ok 0)
    ∧ (∀ resp n, dictGet resp (.bytes bComplete) = some (.int n) → complete resp = .ok n)
    ∧ (∀ resp w, dictGet resp (.bytes bComplete) = some w → (∀ n, w ≠ .int n) →
        complete resp = .error .typeError)
    ∧ (∀ resp, dictGet resp (.bytes bIncomplete) = Option.none → incomplete resp = .ok 0)
    ∧ (∀ resp n, dictGet resp (.bytes bIncomplete) = some (.int n) → incomplete resp = .ok n)
    ∧ (∀ resp w, dictGet resp (.bytes bIncomplete) = some w → (∀ n, w ≠ .int n) →
        incomplete resp = .error .typeError) := by
  refine ⟨?_, ?_, ?_, ?_, ?_, ?_, ?_, ?_, ?_⟩
  · intro resp h; rw [interval, h]; rfl
  · intro resp n h; rw [interval, h]; rfl
  · intro resp w h h2
    rw [interval, h]
    cases w with
    | int n => exact absurd rfl (h2 n)
    | bytes s => rfl
    | list l => rfl
    | dict ps => rfl
    | none => rfl
  · intro resp h; rw [complete, h]; rfl
  · intro resp n h; rw [complete, h]; rfl
  · intro resp w h h2
    rw [complete, h]
    cases w with
    | int n => exact absurd rfl (h2 n)
    | bytes s => rfl
    | list l => rfl
    | dict ps => rfl
    | none => rfl
  · intro resp h; rw [incomplete, h]; rfl
  · intro resp n h; rw [incomplete, h]; rfl
  · intro resp w h h2
    rw [incomplete, h]
    cases w with
    | int n => exact absurd rfl (h2 n)
    | bytes s => rfl
    | list l => rfl
    | dict ps => rfl
    | none => rfl

/-- C6 witness: a missing `interval` key yields 0, a stored integer is
returned, and a byte-string `incomplete` raises `TypeError`. -/
theorem stats_accessors_witness :
    interval [] = .ok 0
    ∧ complete [(PyVal.bytes bComplete, PyVal.int 7)] = .ok 7
    ∧ incomplete [(PyVal.bytes bIncomplete, PyVal.bytes [97])] = .error .typeError :=
  ⟨stats_accessors.1 [] rfl,
   stats_accessors.2.2.2.2.1 [(PyVal.bytes bComplete, PyVal.int 7)] 7 rfl,
   stats_accessors.2.2.2.2.2.2.2.2 [(PyVal.bytes bIncomplete, PyVal.bytes [97])]
     (PyVal.bytes [97]) rfl (fun n hn => by simp at hn)⟩

/-! ## C4 and C5: compact peer decoding -/

/-- `chunk6Aux` ignores its fuel above the list length. -/
theorem chunk6Aux_fuel : ∀ (f g : Nat) (s : List Nat), s.length ≤ f → s.length ≤ g →
    chunk6Aux f s = chunk6Aux g s := by
  intro f
  induction f with
  | zero =>
    intro g s hf hg
    have hnil : s = [] := List.eq_nil_of_length_eq_zero (by omega)
    subst hnil
    cases g <;> rfl
  | succ f ihf =>
    intro g s hf hg
    cases s with
    | nil => cases g <;> rfl
    | cons c t =>
      cases g with
      | zero => simp at hg
      | succ g =>
        simp only [chunk6Aux]
        congr 1
        apply ihf
        · simp only [List.length_drop, List.length_cons] at hf ⊢
          omega
        · simp only [List.length_drop, List.length_cons] at hg ⊢
          omega

/-- Unfolding one chunking step. -/
theorem chunk6_cons (c : Nat) (t : List Nat) :
    chunk6 (c :: t) = (c :: t).take 6 :: chunk6 ((c :: t).drop 6) := by
  rw [chunk6, chunk6]
  simp only [List.length_cons, chunk6Aux]
  congr 1
  apply chunk6Aux_fuel
  · simp only [List.length_drop, List.length_cons]
    omega
  · exact le_refl _

/-- A compact string of length divisible by 6 converts chunkwise to the
spec's indexed peer list. -/
theorem peersSpec_cons6 (a b c d4 e5 f6 : Nat) (t : List Nat) :
    peersSpec (a :: b :: c :: d4 :: e5 :: f6 :: t)
      = (dottedQuad a b c d4, 256 * e5 + f6) :: peersSpec t := by
  rw [peersSpec, peersSpec]
  have hlen : (a :: b :: c :: d4 :: e5 :: f6 :: t).length / 6 = t.length / 6 + 1 := by
    simp only [List.length_cons]
    omega
  rw [hlen, List.range_succ_eq_map, List.map_cons, List.map_map]
  rfl

/-- On a multiple-of-six compact string, the peer comprehension succeeds and
matches the spec-side description. -/
theorem mapPeers_mult6 : ∀ (n : Nat) (s : List Nat), s.length = 6 * n →
    mapPeers (chunk6 s) = .ok (peersSpec s) := by
  intro n
  induction n with
  | zero =>
    intro s h
    have hnil : s = [] := List.eq_nil_of_length_eq_zero (by omega)
    subst hnil
    rfl
  | succ n ihn =>
    intro s hlen
    rcases s with _ | ⟨a, _ | ⟨b, _ | ⟨c, _ | ⟨d4, _ | ⟨e5, _ | ⟨f6, t⟩⟩⟩⟩⟩⟩
    · simp only [List.length_nil] at hlen; omega
    · simp only [List.length_cons, List.length_nil] at hlen; omega
    · simp only [List.length_cons, List.length_nil] at hlen; omega
    · simp only [List.length_cons, List.length_nil] at hlen; omega
    · simp only [List.length_cons, List.length_nil] at hlen; omega
    · simp only [List.length_cons, List.length_nil] at hlen; omega
    · have hlen' : t.length = 6 * n := by
        simp only [List.length_cons] at hlen
        omega
      rw [chunk6_cons]
      show (match mapPeers (chunk6 t) with
        | .error e2 => (.error e2 : Except TrkErr (List (String × Nat)))
        | .ok acc => .ok ((dottedQuad a b c d4, 256 * e5 + f6) :: acc))
          = .ok (peersSpec (a :: b :: c :: d4 :: e5 :: f6 :: t))
      rw [ihn t hlen']
      show Except.ok ((dottedQuad a b c d4, 256 * e5 + f6) :: peersSpec t)
        = .ok (peersSpec (a :: b :: c :: d4 :: e5 :: f6 :: t))
      rw [peersSpec_cons6]

/-- On a compact string whose length is not divisible by 6, the peer
comprehension fails with `OSError` (short final chunk of 1–3 bytes fed to
`inet_ntoa`) or `struct.error` (4–5 bytes, short port). -/
theorem mapPeers_not_mult6 : ∀ (n : Nat) (s : List Nat), s.length ≤ n → s.length % 6 ≠ 0 →
    ∃ e, mapPeers (chunk6 s) = .error e ∧ (e = TrkErr.osError ∨ e = TrkErr.structError) := by
  intro n
  induction n with
  | zero =>
    intro s h0 hm
    have hnil : s = [] := List.eq_nil_of_length_eq_zero (by omega)
    subst hnil
    exact absurd rfl hm
  | succ n ihn =>
    intro s hlen hm
    rcases s with _ | ⟨a, _ | ⟨b, _ | ⟨c, _ | ⟨d4, _ | ⟨e5, _ | ⟨f6, t⟩⟩⟩⟩⟩⟩
    · exact absurd rfl hm
    · exact ⟨TrkErr.osError, rfl, Or.inl rfl⟩
    · exact ⟨TrkErr.osError, rfl, Or.inl rfl⟩
    · exact ⟨TrkErr.osError, rfl, Or.inl rfl⟩
    · exact ⟨TrkErr.structError, rfl, Or.inr rfl⟩
    · exact ⟨TrkErr.structError, rfl, Or.inr rfl⟩
    · have hm' : t.length % 6 ≠ 0 := by
        simp only [List.length_cons] at hm ⊢
        omega
      have hlen' : t.length ≤ n := by
        simp only [List.length_cons] at hlen
        omega
      obtain ⟨e, he, hor⟩ := ihn t hlen' hm'
      refine ⟨e, ?_, hor⟩
      rw [chunk6_cons]
      show (match mapPeers (chunk6 t) with
        | .error e2 => (.error e2 : Except TrkErr (List (String × Nat)))
        | .ok acc => .ok ((dottedQuad a b c d4, 256 * e5 + f6) :: acc)) = .error e
      rw [he]

/-- C4: a `peers` byte string whose length is not a multiple of 6 makes the
`peers` accessor fail (`OSError`/`struct.error`, the spec's
`MalformedInput`). -/
theorem peers_not_mult6 (resp : List (PyVal × PyVal)) (s : List Nat)
    (hget : dictGet resp (.bytes bPeers) = some (.bytes s)) (hmod : s.length % 6 ≠ 0) :
    ∃ e, peers resp = .error e ∧ (e = TrkErr.osError ∨ e = TrkErr.structError) := by
  obtain ⟨e, he, hor⟩ := mapPeers_not_mult6 s.length s (le_refl _) hmod
  refine ⟨e, ?_, hor⟩
  rw [peers, hget]
  exact he

/-- C4 witness: a 7-byte compact string fails. -/
theorem peers_not_mult6_witness :
    dictGet [(PyVal.bytes bPeers, PyVal.bytes [1, 2, 3, 4, 5, 6, 7])] (.bytes bPeers)
      = some (.bytes [1, 2, 3, 4, 5, 6, 7])
    ∧ ([1, 2, 3, 4, 5, 6, 7] : List Nat).length % 6 ≠ 0
    ∧ ∃ e, peers [(PyVal.bytes bPeers, PyVal.bytes [1, 2, 3, 4, 5, 6, 7])] = .error e
        ∧ (e = TrkErr.osError ∨ e = TrkErr.structError) :=
  ⟨rfl, by decide,
   peers_not_mult6 [(PyVal.bytes bPeers, PyVal.bytes [1, 2, 3, 4, 5, 6, 7])]
     [1, 2, 3, 4, 5, 6, 7] rfl (by decide)⟩

/-- C5: a `peers` byte string of length `6k` yields exactly `k` `(ip, port)`
pairs in order — the `i`-th pair built from the dotted quad of bytes
`6i..6i+3` and the big-endian 16-bit port of bytes `6i+4..6i+5` — and a
`List`-valued `peers` field fails with `NotImplementedError`
(`Unsupported`). -/
theorem peers_compact_spec :
    (∀ (resp : List (PyVal × PyVal)) (s : List Nat),
      dictGet resp (.bytes bPeers) = some (.bytes s) → s.length % 6 = 0 →
      peers resp = .ok (peersSpec s) ∧ (peersSpec s).length = s.length / 6)
    ∧ (∀ (resp : List (PyVal × PyVal)) (l : List PyVal),
      dictGet resp (.bytes bPeers) = some (.list l) →
      peers resp = .error .notImplementedError) := by
  constructor
  · intro resp s hget hmod
    obtain ⟨n, hn⟩ := Nat.dvd_of_mod_eq_zero hmod
    constructor
    · rw [peers, hget]
      exact mapPeers_mult6 n s hn
    · rw [peersSpec]
      simp
  · intro resp l hget
    rw [peers, hget]

/-- C5 witness: a 12-byte compact string yields exactly its two pairs, and a
list-valued field raises `NotImplementedError`. -/
theorem peers_compact_spec_witness :
    dictGet [(PyVal.bytes bPeers, PyVal.bytes [10, 0, 0, 1, 26, 225, 192, 168, 1, 2, 0, 80])]
      (.bytes bPeers) = some (.bytes [10, 0, 0, 1, 26, 225, 192, 168, 1, 2, 0, 80])
    ∧ ([10, 0, 0, 1, 26, 225, 192, 168, 1, 2, 0, 80] : List Nat).length % 6 = 0
    ∧ peers [(PyVal.bytes bPeers, PyVal.bytes [10, 0, 0, 1, 26, 225, 192, 168, 1, 2, 0, 80])]
        = .ok (peersSpec [10, 0, 0, 1, 26, 225, 192, 168, 1, 2, 0, 80])
    ∧ (peersSpec [10, 0, 0, 1, 26, 225, 192, 168, 1, 2, 0, 80]).length = 2
    ∧ peers [(PyVal.bytes bPeers, PyVal.list [])] = .error .notImplementedError := by
  refine ⟨rfl, by decide, ?_, ?_, ?_⟩
  · exact (peers_compact_spec.1
      [(PyVal.bytes bPeers, PyVal.bytes [10, 0, 0, 1, 26, 225, 192, 168, 1, 2, 0, 80])]
      [10, 0, 0, 1, 26, 225, 192, 168, 1, 2, 0, 80] rfl (by decide)).1
  · have h := (peers_compact_spec.1
      [(PyVal.bytes bPeers, PyVal.bytes [10, 0, 0, 1, 26, 225, 192, 168, 1, 2, 0, 80])]
      [10, 0, 0, 1, 26, 225, 192, 168, 1, 2, 0, 80] rfl (by decide)).2
    rw [h]
    decide
  · exact peers_compact_spec.2 [(PyVal.bytes bPeers, PyVal.list [])] [] rfl

/-! ## C8: announce query parameters -/

/-- C8: the announce parameters carry `event=completed` whenever `seeder` is
set (the later dict assignment overwrites `event=started`), `event=started`
exactly when `first` and not `seeder`, no `event` key when neither flag is
set, and always `left = total_size - downloaded`. -/
theorem connect_event_left (infoHash peerId : List Nat) (totalSize uploaded downloaded : Int)
    (first seeder : Bool) :
    getParam (connectParams infoHash peerId totalSize uploaded downloaded first seeder) "event"
      = (if seeder then some (.qs "completed") else if first then some (.qs "started")
         else Option.none)
    ∧ (getParam (connectParams infoHash peerId totalSize uploaded downloaded first seeder)
        "event" = some (.qs "started") ↔ first = true ∧ seeder = false)
    ∧ getParam (connectParams infoHash peerId totalSize uploaded downloaded first seeder) "left"
      = some (.qi (totalSize - downloaded)) := by
  have h1 : getParam (connectParams infoHash peerId totalSize uploaded downloaded first seeder)
      "event" = (if seeder then some (.qs "completed") else if first then some (.qs "started")
        else Option.none) := by
    cases first <;> cases seeder <;> rfl
  refine ⟨h1, ?_, ?_⟩
  · rw [h1]
    cases seeder
    · cases first <;> simp
    · cases first <;> simp
  · cases first <;> cases seeder <;> rfl

end MyTorrent
